import Mathlib

/-!
# Avalanche Sentinel — verification of the heuristic rule-evaluation engine

Shallow embedding of the three heuristic worker binaries of the repository
(`consensus_compliance_worker`, `staking_precompile_worker`,
`subnet_portability_worker`).  Source text is modelled as `List Char`
(Rust `&str` seen as a character sequence); each fixed regular expression of
the source is embedded as an executable matcher over `List Char` with the
semantics of the Rust `regex` crate on those concrete patterns
(`is_match` = a match exists at some starting position; word boundaries,
whitespace and word classes restricted to their ASCII content, which is what
the analysed smart-contract text exercises).  Machine integers (`u32`/`u64`
line numbers and gas limits) are modelled as `Nat`; the analysed loops index
lines by `usize`, which does not overflow for representable inputs.
The fallible operation of the staking worker (the `unwrap` of capture
group 0 after a successful regex capture) is modelled in `Option`.
-/

/-- Opening brace character, written via its code point to keep braces out of
string literals. -/
def lbrace : Char := Char.ofNat 123

/-- Closing brace character. -/
def rbrace : Char := Char.ofNat 125

/-- ASCII word character, the content of the regex class `[a-zA-Z0-9_]` and of
`\w` / `\b` on ASCII text. -/
def isWordChar (c : Char) : Bool := c.isAlphanum || c = '_'

/-- ASCII whitespace, the content of the regex class `\s` on ASCII text. -/
def isWs (c : Char) : Bool :=
  c = ' ' || c = '\t' || c = '\n' || c = '\r' || c = '\x0b' || c = '\x0c'

/-- Consume a literal character sequence; `some r` is the rest of the input. -/
def litP : List Char → List Char → Option (List Char)
  | [], s => some s
  | _ :: _, [] => none
  | c :: w, d :: s => if d = c then litP w s else none

/-- Case-insensitive literal consumption (ASCII folding, the content of the
`(?i)` flag on the concrete patterns of the source). -/
def ciLitP : List Char → List Char → Option (List Char)
  | [], s => some s
  | _ :: _, [] => none
  | c :: w, d :: s => if d.toLower = c.toLower then ciLitP w s else none

/-- Greedy `\s*`. -/
def dropWs (s : List Char) : List Char := s.dropWhile isWs

/-- Greedy `\s+`: at least one whitespace character. -/
def ws1P : List Char → Option (List Char)
  | [] => none
  | c :: t => if isWs c then some (dropWs t) else none

/-- Greedy `[a-zA-Z0-9_]+`: at least one word character. -/
def wordChars1P : List Char → Option (List Char)
  | [] => none
  | c :: t => if isWordChar c then some (t.dropWhile isWordChar) else none

/-- No word character before the current position (`\b` on a pattern starting
with a word character). -/
def prevOkW : Option Char → Bool
  | none => true
  | some c => !isWordChar c

/-- No word character after the consumed pattern (`\b` after a pattern ending
with a word character). -/
def nextOkW : List Char → Bool
  | [] => true
  | c :: _ => !isWordChar c

/-- `\bw\b` for a literal `w` that starts and ends with a word character,
tested at the current position (`prev` is the character just before it). -/
def wbLitAt (w : List Char) (prev : Option Char) (s : List Char) : Bool :=
  prevOkW prev &&
    match litP w s with
    | some r => nextOkW r
    | none => false

/-- Regex search: `f prev s` decides a match anchored at the position whose
remaining input is `s` and whose preceding character is `prev`; the search
tries every position of the input.  `containsAt f none s` is `is_match`. -/
def containsAt (f : Option Char → List Char → Bool) : Option Char → List Char → Bool
  | prev, [] => f prev []
  | prev, c :: t => f prev (c :: t) || containsAt f (some c) t

/-- `Regex::is_match` over a whole text. -/
def reMatch (f : Option Char → List Char → Bool) (s : List Char) : Bool :=
  containsAt f none s

/-- Rust `str::contains` with a string pattern (substring test). -/
def hasSub (pat : List Char) : List Char → Bool
  | [] => (litP pat []).isSome
  | c :: t => (litP pat (c :: t)).isSome || hasSub pat t

/-- Rust `str::lines`: split at `\n` or `\r\n`, terminator not included, final
line ending optional, empty input gives no lines. -/
def rustLines : List Char → List (List Char)
  | [] => []
  | '\n' :: t => [] :: rustLines t
  | '\r' :: '\n' :: t => [] :: rustLines t
  | c :: t =>
    match rustLines t with
    | [] => [[c]]
    | l :: ls => (c :: l) :: ls

/-- Indexed flat-map, the shape of `for (i, line) in lines().enumerate()`
loops that push findings per line. -/
def scanIdx {α β : Type} (g : Nat → α → List β) : Nat → List α → List β
  | _, [] => []
  | i, a :: rest => g i a ++ scanIdx g (i + 1) rest

/-- Indexed flat-map in `Option`, for a per-line body that can fail. -/
def scanIdxM {α β : Type} (g : Nat → α → Option (List β)) : Nat → List α → Option (List β)
  | _, [] => some []
  | i, a :: rest => do
    let here ← g i a
    let there ← scanIdxM g (i + 1) rest
    pure (here ++ there)

/-- First line (1-based) on which `f` holds, 0 when none does: the shape of
the `let mut line_num = 0; for (i, line) in ... { if ... break }` loops. -/
def firstLine (f : List Char → Bool) : Nat → List (List Char) → Nat
  | _, [] => 0
  | i, lc :: rest => if f lc then i + 1 else firstLine f (i + 1) rest

/-! ## Matchers for the fixed patterns of `consensus_compliance_worker`

Each definition embeds one `Regex::new(...)` literal of
`src/backend/workers/consensus_compliance_worker/src/main.rs`. -/

/-- `function\s+(commit|register|submit)\s*\(\s*bytes32`, anchored at the
current position. -/
def commitAt (s : List Char) : Bool :=
  (do
    let s ← litP "function".data s
    let s ← ws1P s
    let s ← litP "commit".data s <|> litP "register".data s <|> litP "submit".data s
    let s ← litP "(".data (dropWs s)
    let _ ← litP "bytes32".data (dropWs s)
    pure ()).isSome

/-- `function\s+(reveal|claim|solve)\s*\(`, anchored at the current position. -/
def revealAt (s : List Char) : Bool :=
  (do
    let s ← litP "function".data s
    let s ← ws1P s
    let s ← litP "reveal".data s <|> litP "claim".data s <|> litP "solve".data s
    let _ ← litP "(".data (dropWs s)
    pure ()).isSome

/-- `\bblock\.number\b`, anchored. -/
def blockNumberAt (prev : Option Char) (s : List Char) : Bool :=
  wbLitAt "block.number".data prev s

/-- `(?i)\.(getReserves|token0|token1|balanceOf)\s*\(\s*\)`, anchored. -/
def spotAt (s : List Char) : Bool :=
  (do
    let s ← litP ".".data s
    let s ← ciLitP "getReserves".data s <|> ciLitP "token0".data s <|>
            ciLitP "token1".data s <|> ciLitP "balanceOf".data s
    let s ← litP "(".data (dropWs s)
    let _ ← litP ")".data (dropWs s)
    pure ()).isSome

/-- `contract\s+[a-zA-Z0-9_]+\s+(?:is|implements)\s+(?:AggregatorV3Interface|Chainlink|PriceOracle)`,
anchored. -/
def priceFeedAt (s : List Char) : Bool :=
  (do
    let s ← litP "contract".data s
    let s ← ws1P s
    let s ← wordChars1P s
    let s ← ws1P s
    let s ← litP "is".data s <|> litP "implements".data s
    let s ← ws1P s
    let _ ← litP "AggregatorV3Interface".data s <|> litP "Chainlink".data s <|>
            litP "PriceOracle".data s
    pure ()).isSome

/-- `function\s+(set|change)(Admin|Owner|Pauser|Operator)\s*\(`, anchored. -/
def setterAt (s : List Char) : Bool :=
  (do
    let s ← litP "function".data s
    let s ← ws1P s
    let s ← litP "set".data s <|> litP "change".data s
    let s ← litP "Admin".data s <|> litP "Owner".data s <|>
            litP "Pauser".data s <|> litP "Operator".data s
    let _ ← litP "(".data (dropWs s)
    pure ()).isSome

/-- `\b(admin|owner|pauser|operator)\b`, anchored. -/
def criticalVarAt (prev : Option Char) (s : List Char) : Bool :=
  wbLitAt "admin".data prev s || wbLitAt "owner".data prev s ||
  wbLitAt "pauser".data prev s || wbLitAt "operator".data prev s

/-- Tail `\b(>=|>)\b` of the time-lock pattern at the current position: `>` is
not a word character, so the boundary before it demands a word character just
before, and the boundary after `>=` (resp. `>`) demands a word character right
after. -/
def gtAt (prev : Option Char) (s : List Char) : Bool :=
  (match prev with
   | some c => isWordChar c
   | none => false) &&
  (match s with
   | '>' :: '=' :: c :: _ => isWordChar c
   | '>' :: c :: _ => isWordChar c
   | _ => false)

/-- Search for the `\b(>=|>)\b` tail along `.*` (which cannot cross `\n`). -/
def gtSearch : Option Char → List Char → Bool
  | prev, [] => gtAt prev []
  | prev, c :: t => gtAt prev (c :: t) || (!(c = '\n') && gtSearch (some c) t)

/-- `\b(block\.timestamp|block\.number)\b.*\b(>=|>)\b`, anchored. -/
def timeLockAt (prev : Option Char) (s : List Char) : Bool :=
  prevOkW prev &&
  (match litP "block.timestamp".data s with
   | some r => nextOkW r && gtSearch (some 'p') r
   | none =>
     match litP "block.number".data s with
     | some r => nextOkW r && gtSearch (some 'r') r
     | none => false)

/-- `\b(blockhash|block\.timestamp|block\.difficulty|block\.coinbase|block\.number)\b`,
anchored. -/
def unsafeRandAt (prev : Option Char) (s : List Char) : Bool :=
  wbLitAt "blockhash".data prev s || wbLitAt "block.timestamp".data prev s ||
  wbLitAt "block.difficulty".data prev s || wbLitAt "block.coinbase".data prev s ||
  wbLitAt "block.number".data prev s

/-- `\bkeccak256\b`, anchored. -/
def keccakAt (prev : Option Char) (s : List Char) : Bool :=
  wbLitAt "keccak256".data prev s

/-- `commit_regex.is_match`. -/
def commitMatch (s : List Char) : Bool := reMatch (fun _ t => commitAt t) s

/-- `reveal_regex.is_match`. -/
def revealMatch (s : List Char) : Bool := reMatch (fun _ t => revealAt t) s

/-- `block_number_regex.is_match`. -/
def blockNumberMatch (s : List Char) : Bool := reMatch blockNumberAt s

/-- `spot_price_regex.is_match`. -/
def spotMatch (s : List Char) : Bool := reMatch (fun _ t => spotAt t) s

/-- `is_price_feed_contract_regex.is_match`. -/
def priceFeedMatch (s : List Char) : Bool := reMatch (fun _ t => priceFeedAt t) s

/-- `critical_setter_regex.is_match`. -/
def setterMatch (s : List Char) : Bool := reMatch (fun _ t => setterAt t) s

/-- `critical_variable_regex.is_match`. -/
def criticalVarMatch (s : List Char) : Bool := reMatch criticalVarAt s

/-- `time_lock_regex.is_match`. -/
def timeLockMatch (s : List Char) : Bool := reMatch timeLockAt s

/-- `unsafe_randomness_regex.is_match`. -/
def unsafeRandMatch (s : List Char) : Bool := reMatch unsafeRandAt s

/-- `keccak_regex.is_match`. -/
def keccakMatch (s : List Char) : Bool := reMatch keccakAt s

/-! ## Matchers for the fixed patterns of `staking_precompile_worker`

Each definition embeds one `Regex::new(...)` literal of
`src/backend/workers/staking_precompile_worker/src/main.rs`. -/

/-- Visibility alternation `(public|external|internal|private)` of
`function_regex`; the four literals are pairwise incompatible at one
position, so trying them in order is exact. -/
def visP (s : List Char) : Option (List Char) :=
  litP "public".data s <|> litP "external".data s <|>
  litP "internal".data s <|> litP "private".data s

/-- Lazy tail `(.*?)\s*\{` of `function_regex`: stop at the first position
from which `\s*\{` completes (`.` cannot consume `\n`); returns the input
after the opening brace. -/
def modsP : List Char → Option (List Char)
  | [] => none
  | c :: t =>
    (match dropWs (c :: t) with
     | b :: r => if b = lbrace then some r else none
     | [] => none)
    <|>
    (if c = '\n' then none else modsP t)

/-- `\)\s*(public|external|internal|private)\s*(.*?)\s*\{` after the lazy
parameter group stops, returning the input after the opening brace. -/
def afterParenP (s : List Char) : Option (List Char) :=
  (visP (dropWs s)).bind fun r => modsP (dropWs r)

/-- Lazy group `(.*?)` of the parameter list followed by the rest of
`function_regex`: consume as few characters as possible (never `\n`) before a
`)` from which the remainder of the pattern completes. -/
def paramsP : List Char → Option (List Char)
  | [] => none
  | c :: t =>
    (if c = ')' then afterParenP t else none)
    <|>
    (if c = '\n' then none else paramsP t)

/-- `function\s+([a-zA-Z0-9_]+)\s*\((.*?)\)\s*(public|external|internal|private)\s*(.*?)\s*\{`
anchored at the current position; `some r` is the input after the whole
match. -/
def funcAt (s : List Char) : Option (List Char) :=
  (litP "function".data s).bind fun r =>
  (ws1P r).bind fun r =>
  (wordChars1P r).bind fun r =>
  (litP "(".data (dropWs r)).bind paramsP

/-- Leftmost match of `function_regex`: the suffix at which the match starts
and the rest after it. -/
def funcFind : List Char → Option (List Char × List Char)
  | [] => (funcAt []).map (fun r => ([], r))
  | c :: t =>
    match funcAt (c :: t) with
    | some r => some (c :: t, r)
    | none => funcFind t

/-- `Captures` of the Rust regex crate as used by the worker: only group 0
(the entire match) is ever consulted. -/
structure Captures where
  groups : List (Option (List Char))
deriving DecidableEq

/-- `Captures::get`. -/
def Captures.get (cs : Captures) (n : Nat) : Option (List Char) :=
  cs.groups.getD n none

/-- `function_regex.captures(line)`: group 0 holds the whole matched text. -/
def funcCaptures (s : List Char) : Option Captures :=
  (funcFind s).map fun p => ⟨[some (p.1.take (p.1.length - p.2.length))]⟩

/-- `payable_modifier_regex` = `\bpayable\b`, anchored. -/
def payableAt (prev : Option Char) (s : List Char) : Bool :=
  wbLitAt "payable".data prev s

/-- `payable_modifier_regex.is_match`. -/
def payableMatch (s : List Char) : Bool := reMatch payableAt s

/-- Call-keyword alternation `(call|delegatecall|staticcall)` (no trailing
boundary). -/
def callWordP (s : List Char) : Bool :=
  (litP "call".data s).isSome || (litP "delegatecall".data s).isSome ||
  (litP "staticcall".data s).isSome

/-- `(?:[a-zA-Z0-9_]+\.)?(call|delegatecall|staticcall)` after the `=`. -/
def llcAfterEq (s : List Char) : Bool :=
  callWordP s ||
  (match wordChars1P s with
   | some r =>
     match litP ".".data r with
     | some r2 => callWordP r2
     | none => false
   | none => false)

/-- `\)\s*=\s*(?:[a-zA-Z0-9_]+\.)?(call|delegatecall|staticcall)` starting at
the closing parenthesis. -/
def llcClose (s : List Char) : Bool :=
  match litP ")".data s with
  | some r =>
    match litP "=".data (dropWs r) with
    | some r2 => llcAfterEq (dropWs r2)
    | none => false
  | none => false

/-- `low_level_call_regex` =
`(?:([a-zA-Z0-9_]+)\s*,\s*)?\s*\)\s*=\s*(?:[a-zA-Z0-9_]+\.)?(call|delegatecall|staticcall)`,
anchored (the optional leading capture tried first, then skipped). -/
def lowLevelCallAt (s : List Char) : Bool :=
  (match (do
      let r ← wordChars1P s
      let r ← litP ",".data (dropWs r)
      pure (dropWs r)) with
   | some r => llcClose (dropWs r)
   | none => false)
  || llcClose (dropWs s)

/-- `low_level_call_regex.is_match`. -/
def lowLevelCallMatch (s : List Char) : Bool := reMatch (fun _ t => lowLevelCallAt t) s

/-- Alternative `require\(msg\.sender\s*==\s*[a-zA-Z0-9_]+\)` of
`access_control_regex`, with its trailing `\b`: since `)` is not a word
character, the boundary after it demands a word character right after. -/
def acRequireAt (s : List Char) : Bool :=
  match (do
    let s ← litP "require(msg.sender".data s
    let s ← litP "==".data (dropWs s)
    let s ← wordChars1P (dropWs s)
    litP ")".data s) with
  | some r =>
    (match r with
     | c :: _ => isWordChar c
     | [] => false)
  | none => false

/-- `access_control_regex` =
`\b(onlyOwner|onlyRole|require\(msg\.sender\s*==\s*[a-zA-Z0-9_]+\)|_checkRole)\b`,
anchored. -/
def acAt (prev : Option Char) (s : List Char) : Bool :=
  wbLitAt "onlyOwner".data prev s || wbLitAt "onlyRole".data prev s ||
  wbLitAt "_checkRole".data prev s ||
  (prevOkW prev && acRequireAt s)

/-- `access_control_regex.is_match`. -/
def acMatch (s : List Char) : Bool := reMatch acAt s

/-- The single entry of the `STAKING_PRECOMPILES` registry. -/
def precompileAddr : List Char := "0x0100000000000000000000000000000000000000".data

/-- `(?i)\b{address}\b` built by `format!` for a registry address, anchored. -/
def addrAt (addr : List Char) (prev : Option Char) (s : List Char) : Bool :=
  prevOkW prev &&
    match ciLitP addr s with
    | some r => nextOkW r
    | none => false

/-- `Regex::new(&format!(r"(?i)\b{}\b", address)).is_match`. -/
def addrMatch (addr : List Char) (s : List Char) : Bool := reMatch (addrAt addr) s

/-! ## Matchers for the fixed patterns of `subnet_portability_worker` -/

/-- `\bchainid\b`, anchored. -/
def chainidAt (prev : Option Char) (s : List Char) : Bool :=
  wbLitAt "chainid".data prev s

/-- `\bmsg\.value\b`, anchored. -/
def msgValueAt (prev : Option Char) (s : List Char) : Bool :=
  wbLitAt "msg.value".data prev s

/-- `\.balance\b`, anchored. -/
def balanceAt (s : List Char) : Bool :=
  match litP ".balance".data s with
  | some r => nextOkW r
  | none => false

/-- `\.call\s*\{\s*gas:`, anchored. -/
def hardcodedGasAt (s : List Char) : Bool :=
  (do
    let s ← litP ".call".data s
    let s ← (match dropWs s with
             | b :: r => if b = lbrace then some r else none
             | [] => none)
    let _ ← litP "gas:".data (dropWs s)
    pure ()).isSome

/-- Rust `str::to_lowercase` composed with `str::contains`, as used on the
hard-coded address registries (ASCII folding; the registry entries are ASCII
hexadecimal addresses). -/
def lowerContains (hay pat : List Char) : Bool :=
  hasSub (pat.map Char.toLower) (hay.map Char.toLower)

/-- Rust `str::eq_ignore_ascii_case`. -/
def eqIgnoreCase (a b : List Char) : Bool :=
  a.map Char.toLower == b.map Char.toLower

namespace Consensus

/-- Finding record of the consensus worker (`ConsensusIssue`). -/
structure ConsensusIssue where
  line : Nat
  issue_type : String
  description : String
  recommendation : String
deriving DecidableEq

/-- Job payload of the consensus worker. -/
structure AnalysisJob where
  job_id : String
  source_code : String

/-- Result payload of the consensus worker. -/
structure AnalysisResult where
  job_id : String
  worker_name : String
  output : List ConsensusIssue
deriving DecidableEq

/-- Category tag of the V1 commit-reveal finding. -/
def reorgType : String := "Reorg Safety Hazard (Implicit Finality Assumption)"

/-- Category tag of the V2 whole-file gate finding. -/
def multiTxType : String := "Multi-Transaction Dependency Hazard"

/-- Category tag of the V2 per-line spot-price finding. -/
def spotType : String := "Spot Price Oracle Hazard"

/-- Category tag of the V3 per-line randomness finding. -/
def randType : String := "Unsafe On-Chain Randomness"

/-- The V1 commit-reveal finding at a given report line. -/
def reorgIssue (n : Nat) : ConsensusIssue :=
  { line := n
    issue_type := reorgType
    description := "A commit-reveal scheme was detected, but it does not appear to use `block.number` to enforce a delay between the commit and reveal phases."
    recommendation := "While safe on Avalanche due to fast finality, this pattern is vulnerable to reorgs on other chains. To ensure universal compatibility, use `block.number` to enforce a delay." }

/-- The V2 whole-file gate finding at a given report line. -/
def multiTxIssue (n : Nat) : ConsensusIssue :=
  { line := n
    issue_type := multiTxType
    description := "A critical state variable (e.g., owner, admin) can be set and immediately used without a time-lock. This is vulnerable to front-running and reorgs on slower-finality chains."
    recommendation := "Implement a time-lock or a two-step process for critical state changes. E.g., `proposeNewAdmin(address)` in one tx, `acceptAdmin()` in a later tx after a time delay (`block.timestamp + DELAY`)." }

/-- The V2 spot-price finding at a given report line. -/
def spotIssue (n : Nat) : ConsensusIssue :=
  { line := n
    issue_type := spotType
    description := "Direct read of spot price from a DEX (e.g., `getReserves()`) detected. This is vulnerable to flash loan manipulation on slower-finality chains."
    recommendation := "Always use a Time-Weighted Average Price (TWAP) oracle or a decentralized oracle network (like Chainlink) for robust price feeds, especially when interacting with chains susceptible to reorgs." }

/-- The V3 randomness finding at a given report line. -/
def randIssue (n : Nat) : ConsensusIssue :=
  { line := n
    issue_type := randType
    description := "The contract appears to be generating a random number using a predictable or manipulatable on-chain value (e.g., block.timestamp, blockhash)."
    recommendation := "Never use on-chain data for randomness in applications where value is at stake. This is a critical vulnerability. Use a secure off-chain solution like Chainlink VRF (Verifiable Random Function) to get provably fair random numbers." }

/-- Body of the `for (i, line_content) in code.lines().enumerate()` loop:
the V2 spot-price check followed by the V3 randomness check. -/
def lineIssues (code : List Char) (i : Nat) (lc : List Char) : List ConsensusIssue :=
  (if spotMatch lc && !priceFeedMatch code then [spotIssue (i + 1)] else []) ++
  (if keccakMatch lc && unsafeRandMatch lc then [randIssue (i + 1)] else [])

/-- `analyze_consensus_safety_v3`: V1 commit-reveal gate, V2 state-dependency
gate, per-line V2/V3 checks, then `HashSet` deduplication (iteration order of
the `HashSet` is unspecified; `List.dedup` is the canonical representative). -/
def analyze_consensus_safety_v3 (job : AnalysisJob) : AnalysisResult :=
  let code := job.source_code.data
  let lines := rustLines code
  let v1 : List ConsensusIssue :=
    if commitMatch code && revealMatch code && !blockNumberMatch code then
      [reorgIssue (firstLine revealMatch 0 lines)]
    else []
  let v2 : List ConsensusIssue :=
    if setterMatch code && criticalVarMatch code && !timeLockMatch code then
      [multiTxIssue (firstLine setterMatch 0 lines)]
    else []
  let issues := v1 ++ v2 ++ scanIdx (lineIssues code) 0 lines
  { job_id := job.job_id
    worker_name := "ConsensusComplianceWorkerV3"
    output := issues.dedup }

end Consensus

namespace Staking

/-- Finding record of the staking worker (`PrecompileIssue`). -/
structure PrecompileIssue where
  line : Nat
  issue_type : String
  description : String
  recommendation : String
deriving DecidableEq

/-- Job payload of the staking worker. -/
structure AnalysisJob where
  job_id : String
  source_code : String

/-- Result payload of the staking worker. -/
structure AnalysisResult where
  job_id : String
  worker_name : String
  output : List PrecompileIssue
deriving DecidableEq

/-- The `STAKING_PRECOMPILES` registry: one address with its display name. -/
def STAKING_PRECOMPILES : List (List Char × String) :=
  [(precompileAddr, "P-Chain Handler")]

/-- Category tag of the base interaction finding. -/
def interactionType : String := "P-Chain Precompile Interaction"

/-- Category tag of the missing-payability finding. -/
def missingPayableType : String := "Missing Payable Modifier"

/-- Category tag of the unchecked-return finding. -/
def uncheckedType : String := "Unchecked Return Value"

/-- Category tag of the weak-access-control finding. -/
def weakAcType : String := "Weak Access Control"

/-- The base interaction finding for a registry entry. -/
def interactionIssue (n : Nat) (name : String) : PrecompileIssue :=
  { line := n
    issue_type := interactionType
    description := "Direct interaction with the " ++ name ++ " precompile detected."
    recommendation := "This is a powerful, low-level operation. Review its correctness and security properties. Specific checks below." }

/-- The missing-payability finding; the description interpolates the captured
signature line. -/
def missingPayableIssue (n : Nat) (sig : List Char) : PrecompileIssue :=
  { line := n
    issue_type := missingPayableType
    description := "Interaction with a staking precompile requires `payable`, but the containing function (\x27" ++ String.mk sig ++ "\x27) is not marked `payable`."
    recommendation := "Ensure functions interacting with staking precompiles that send AVAX (e.g., delegate, addLiquidity) are marked `payable`." }

/-- The unchecked-return finding. -/
def uncheckedIssue (n : Nat) : PrecompileIssue :=
  { line := n
    issue_type := uncheckedType
    description := "The return value of a low-level call to a precompile is not explicitly checked."
    recommendation := "Always check the `success` boolean return value of low-level calls (`(bool success, bytes memory data) = addr.call(...)`). Use `require(success, \"Call failed\")` to prevent silent failures." }

/-- The weak-access-control finding. -/
def weakAcIssue (n : Nat) : PrecompileIssue :=
  { line := n
    issue_type := weakAcType
    description := "A public/external function interacting with a staking precompile lacks explicit access control."
    recommendation := "Functions that can alter staking state should be strictly controlled (e.g., `onlyOwner`, multi-sig, or DAO). Public access is a major security risk." }

/-- Backward scan `for j in (0..=i).rev()` locating the enclosing function
declaration; `some (start, sig)` is the loop outcome (`(0, [])` when no line
matches), `none` models the `.get(0).unwrap()` panic path. -/
def findFunc (lines : List (List Char)) : Nat → Option (Nat × List Char)
  | 0 =>
    match funcCaptures (lines.getD 0 []) with
    | some fm => (fm.get 0).map fun sig => (1, sig)
    | none => some (0, [])
  | j + 1 =>
    match funcCaptures (lines.getD (j + 1) []) with
    | some fm => (fm.get 0).map fun sig => (j + 2, sig)
    | none => findFunc lines j

/-- Forward scan `for k in i..count` for in-body access control, stopping at
the first line containing a closing brace; `fuel` is `count - k`. -/
def fwdScan (lines : List (List Char)) : Nat → Nat → Bool
  | 0, _ => false
  | fuel + 1, k =>
    let body := lines.getD k []
    if body.contains rbrace then false
    else if acMatch body then true
    else fwdScan lines fuel (k + 1)

/-- Checks performed for one registry entry on one line: the base finding,
then the V2 payability, unchecked-return and weak-access-control checks. -/
def perAddr (lines : List (List Char)) (i : Nat) (lc : List Char)
    (addr : List Char) (name : String) : Option (List PrecompileIssue) :=
  if addrMatch addr lc then do
    let fs ← findFunc lines i
    let sig := fs.2
    let payableIssues : List PrecompileIssue :=
      if !payableMatch sig then [missingPayableIssue (i + 1) sig] else []
    let uncheckedIssues : List PrecompileIssue :=
      if lowLevelCallMatch lc then
        if !hasSub "require(".data lc && !hasSub "=".data lc then
          [uncheckedIssue (i + 1)]
        else []
      else []
    let weakIssues : List PrecompileIssue :=
      if hasSub "public".data sig || hasSub "external".data sig then
        if !acMatch sig then
          if !fwdScan lines (lines.length - i) i then [weakAcIssue (i + 1)] else []
        else []
      else []
    pure (interactionIssue (i + 1) name :: (payableIssues ++ uncheckedIssues ++ weakIssues))
  else pure []

/-- Body of the per-line loop: the inner `for (address, name) in
STAKING_PRECOMPILES` loop. -/
def lineIssues (lines : List (List Char)) (i : Nat) (lc : List Char) :
    Option (List PrecompileIssue) :=
  STAKING_PRECOMPILES.foldlM
    (fun acc p => (perAddr lines i lc p.1 p.2).map (acc ++ ·))
    ([] : List PrecompileIssue)

/-- `analyze_staking_precompiles_v2`; no deduplication step is performed by
this worker.  `none` models the (unreachable) panic of the signature
`unwrap`. -/
def analyze_staking_precompiles_v2 (job : AnalysisJob) : Option AnalysisResult := do
  let lines := rustLines job.source_code.data
  let issues ← scanIdxM (lineIssues lines) 0 lines
  pure { job_id := job.job_id
         worker_name := "StakingPrecompileWorkerV2"
         output := issues }

end Staking

namespace Portability

/-- Finding record of the portability worker (`PortabilityIssue`). -/
structure PortabilityIssue where
  line : Nat
  issue_type : String
  description : String
  recommendation : String
deriving DecidableEq

/-- `FeeConfig` of the subnet genesis (`gasLimit`, u64 as `Nat`). -/
structure FeeConfig where
  gas_limit : Option Nat

/-- `ChainConfig` of the subnet genesis; the
`precompileValidatorAllowList` JSON map is modelled by its key list, the only
part the worker consults (`p.keys().cloned().collect()`). -/
structure ChainConfig where
  fee_config : FeeConfig
  precompile_validator_allow_list : Option (List String)

/-- `Genesis` wrapper of the subnet genesis. -/
structure Genesis where
  config : ChainConfig

/-- Job payload of the portability worker. -/
structure AnalysisJob where
  job_id : String
  source_code : String
  subnet_genesis : Option Genesis

/-- Result payload of the portability worker. -/
structure AnalysisResult where
  job_id : String
  worker_name : String
  output : List PortabilityIssue
deriving DecidableEq

/-- The `CCHAIN_ONLY_ADDRESSES` registry. -/
def CCHAIN_ONLY_ADDRESSES : List (List Char × String) :=
  [("0x9Ad6C38BE94206cA50bb0d90783181662f0Cfa10".data, "Trader Joe V1 Router"),
   ("0x60aE616a2155Ee3d9A68541Ba4544862310933d4".data, "Trader Joe V2 Router"),
   ("0xE54Ca86531e17Ef3616d22Ca28b0D458b6C89106".data, "Pangolin Router"),
   ("0xd00ae08403B959254dbA1188b832b412A4461b95".data, "Benqi Lending Market (qiAVAX)"),
   ("0x2b2C81e08f1Af8835a78Bb2A90AE924ACE0eA4be".data, "Aave V2 Lending Pool")]

/-- The `COMMON_PRECOMPILES` registry. -/
def COMMON_PRECOMPILES : List (List Char × String) :=
  [("0x0100000000000000000000000000000000000000".data, "P-Chain Handler"),
   ("0x0200000000000000000000000000000000000000".data, "Contract Deployer Allow List"),
   ("0x0200000000000000000000000000000000000001".data, "Contract Native Minter"),
   ("0x0200000000000000000000000000000000000002".data, "Fee Manager")]

/-- Category tag of the `chainid` finding. -/
def chainAssumptionType : String := "Hardcoded Chain Assumption"

/-- Category tag of the `msg.value` / `.balance` findings. -/
def nativeTokenType : String := "Native Token Assumption"

/-- Category tag of the hardcoded-gas finding. -/
def hardcodedGasType : String := "Hardcoded Gas Amount"

/-- Category tag of the C-Chain address finding. -/
def cchainDepType : String := "C-Chain Dependency"

/-- Category tag of the precompile allow-list finding. -/
def mismatchType : String := "Precompile Mismatch"

/-- Category tag of the whole-file gas-limit finding. -/
def gasLimitType : String := "Gas Limit Violation Prediction"

/-- The `chainid` finding. -/
def chainidIssue (n : Nat) : PortabilityIssue :=
  { line := n
    issue_type := chainAssumptionType
    description := "The `chainid` opcode was used."
    recommendation := "Avoid using `chainid` for core logic. On a new Subnet, this value will be different and may break your contract." }

/-- The `msg.value` finding. -/
def msgValueIssue (n : Nat) : PortabilityIssue :=
  { line := n
    issue_type := nativeTokenType
    description := "The `msg.value` keyword was used, assuming a native, value-bearing token."
    recommendation := "Be aware that many Subnets may use a valueless native token for gas, or may not use a native token at all (e.g., in favor of an ERC20 for fees). Logic relying on `msg.value > 0` may not be portable." }

/-- The `.balance` finding. -/
def balanceIssue (n : Nat) : PortabilityIssue :=
  { line := n
    issue_type := nativeTokenType
    description := "The `.balance` property was used, assuming a native, value-bearing token."
    recommendation := "Similar to `msg.value`, be aware that the native token on a custom Subnet may not be AVAX and could have different properties. Logic checking `address.balance` might behave as expected." }

/-- The hardcoded-gas finding. -/
def hardcodedGasIssue (n : Nat) : PortabilityIssue :=
  { line := n
    issue_type := hardcodedGasType
    description := "A low-level call with a hardcoded gas amount (`.call\x7bgas: ...\x7d`) was detected."
    recommendation := "This is a fragile pattern. Gas costs for opcodes can change, and Subnets may have different gas semantics. Avoid hardcoding gas unless absolutely necessary." }

/-- The C-Chain hardcoded-address finding for a registry entry. -/
def cchainIssue (n : Nat) (name : String) : PortabilityIssue :=
  { line := n
    issue_type := cchainDepType
    description := "A hardcoded address for a known C-Chain protocol (" ++ name ++ ") was found."
    recommendation := "This contract will not exist on a new Subnet. Pass protocol addresses in the constructor or a setter function to make your contract portable." }

/-- The precompile allow-list mismatch finding for a registry entry. -/
def mismatchIssue (n : Nat) (name : String) : PortabilityIssue :=
  { line := n
    issue_type := mismatchType
    description := "Contract interacts with the \x27" ++ name ++ "\x27 precompile, but it is NOT enabled in the provided Subnet genesis."
    recommendation := "Ensure your target Subnet\x27s genesis file enables all precompiles your contracts require." }

/-- The whole-file gas-limit finding (reported at sentinel line 0). -/
def gasLimitIssue (limit : Nat) : PortabilityIssue :=
  { line := 0
    issue_type := gasLimitType
    description := "A function in this contract has an estimated cost of " ++ toString 1000000 ++ " gas, which exceeds the target Subnet\x27s blockGasLimit of " ++ toString limit ++ "."
    recommendation := "Optimize expensive functions or deploy to a Subnet with a higher block gas limit." }

/-- Body of the per-line loop of `analyze_portability_v3`. -/
def lineIssues (enabled : Option (List String)) (i : Nat) (lc : List Char) :
    List PortabilityIssue :=
  (if reMatch chainidAt lc then [chainidIssue (i + 1)] else []) ++
  (if reMatch msgValueAt lc then [msgValueIssue (i + 1)] else []) ++
  (if reMatch (fun _ t => balanceAt t) lc then [balanceIssue (i + 1)] else []) ++
  (if reMatch (fun _ t => hardcodedGasAt t) lc then [hardcodedGasIssue (i + 1)] else []) ++
  (CCHAIN_ONLY_ADDRESSES.flatMap fun p =>
    if lowerContains lc p.1 then [cchainIssue (i + 1) p.2] else []) ++
  (match enabled with
   | some precompiles =>
     COMMON_PRECOMPILES.flatMap fun p =>
       if lowerContains lc p.1 then
         if !(precompiles.any fun q => eqIgnoreCase q.data p.1) then
           [mismatchIssue (i + 1) p.2]
         else []
       else []
   | none => [])

/-- `analyze_portability_v3`: per-line checks, the genesis gas-limit check,
then `HashSet` deduplication (modelled by `List.dedup`, the iteration order
of the `HashSet` being unspecified). -/
def analyze_portability_v3 (job : AnalysisJob) : AnalysisResult :=
  let code := job.source_code.data
  let lines := rustLines code
  let subnet_gas_limit := job.subnet_genesis.bind fun g => g.config.fee_config.gas_limit
  let enabled := job.subnet_genesis.bind fun g => g.config.precompile_validator_allow_list
  let perLine := scanIdx (lineIssues enabled) 0 lines
  let gasIssues : List PortabilityIssue :=
    match subnet_gas_limit with
    | some limit => if 1000000 > limit then [gasLimitIssue limit] else []
    | none => []
  { job_id := job.job_id
    worker_name := "SubnetPortabilityWorkerV3"
    output := (perLine ++ gasIssues).dedup }

end Portability

/-! ## The job orchestrator of each worker

One turn of the `listen_for_jobs` loop after a payload has been received:
parse the payload (the `serde_json` parser is an external collaborator,
passed as a function), drop it silently on failure, otherwise analyze and
publish exactly one result.  The returned list is the list of published
results for that payload. -/

/-- One orchestrator turn of the consensus worker. -/
def Consensus.processPayload (parse : String → Option Consensus.AnalysisJob)
    (payload : String) : List Consensus.AnalysisResult :=
  match parse payload with
  | none => []
  | some job => [Consensus.analyze_consensus_safety_v3 job]

/-- One orchestrator turn of the staking worker (a `none` from the analyzer
models a panic: the process dies before publishing). -/
def Staking.processPayload (parse : String → Option Staking.AnalysisJob)
    (payload : String) : List Staking.AnalysisResult :=
  match parse payload with
  | none => []
  | some job =>
    match Staking.analyze_staking_precompiles_v2 job with
    | some r => [r]
    | none => []

/-! ## Generic lemmas about the loop and deduplication combinators -/

theorem eq_singleton_of_nodup_all_eq {α : Type} {l : List α} {v : α}
    (hn : l.Nodup) (hall : ∀ x ∈ l, x = v) (hm : v ∈ l) : l = [v] := by
  match l, hn, hall, hm with
  | [], _, _, hm => exact absurd hm (List.not_mem_nil v)
  | a :: t, hn, hall, _ =>
    have ha : a = v := hall a (List.mem_cons_self a t)
    have ht : t = [] := by
      cases t with
      | nil => rfl
      | cons b u =>
        have hb : b = v := hall b (List.mem_cons_of_mem a (List.mem_cons_self b u))
        have : a ∈ b :: u := by rw [ha, ← hb]; exact List.mem_cons_self b u
        exact absurd this (List.Nodup.not_mem hn)
    rw [ha, ht]

theorem countP_dedup_eq_one {α : Type} [DecidableEq α] {l : List α} {p : α → Bool} {v : α}
    (hv : p v = true) (hm : v ∈ l) (hu : ∀ x ∈ l, p x = true → x = v) :
    l.dedup.countP p = 1 := by
  have hfil : l.dedup.filter p = [v] := by
    apply eq_singleton_of_nodup_all_eq
    · exact List.Nodup.filter p (List.nodup_dedup l)
    · intro x hx
      have hx2 := List.mem_filter.mp hx
      exact hu x (List.mem_dedup.mp hx2.1) hx2.2
    · exact List.mem_filter.mpr ⟨List.mem_dedup.mpr hm, hv⟩
  rw [List.countP_eq_length_filter, hfil]
  rfl

theorem countP_dedup_eq_zero {α : Type} [DecidableEq α] {l : List α} {p : α → Bool}
    (h : ∀ x ∈ l, p x = false) : l.dedup.countP p = 0 := by
  rw [List.countP_eq_length_filter]
  have : l.dedup.filter p = [] := by
    apply List.filter_eq_nil_iff.mpr
    intro x hx
    rw [h x (List.mem_dedup.mp hx)]
    exact Bool.false_ne_true
  rw [this]
  rfl

theorem mem_scanIdx {α β : Type} {g : Nat → α → List β} {x : β} :
    ∀ {i : Nat} {l : List α}, x ∈ scanIdx g i l ↔
      ∃ j, ∃ h : j < l.length, x ∈ g (i + j) (l.get ⟨j, h⟩) := by
  intro i l
  induction l generalizing i with
  | nil => simp [scanIdx]
  | cons a t ih =>
    simp only [scanIdx, List.mem_append, ih]
    constructor
    · rintro (hx | ⟨j, hj, hx⟩)
      · exact ⟨0, by simp, by simpa using hx⟩
      · exact ⟨j + 1, by simpa using hj, by simpa [Nat.add_assoc, Nat.add_comm 1 j] using hx⟩
    · rintro ⟨j, hj, hx⟩
      cases j with
      | zero => exact Or.inl (by simpa using hx)
      | succ j =>
        refine Or.inr ⟨j, by simpa using hj, ?_⟩
        simpa [Nat.add_assoc, Nat.add_comm 1 j] using hx

theorem scanIdxM_eq_some {α β : Type} {g : Nat → α → Option (List β)}
    {gT : Nat → α → List β} (h : ∀ i a, g i a = some (gT i a)) :
    ∀ (i : Nat) (l : List α), scanIdxM g i l = some (scanIdx gT i l) := by
  intro i l
  induction l generalizing i with
  | nil => rfl
  | cons a t ih => simp [scanIdxM, scanIdx, h, ih]

theorem nodup_scanIdx {α β : Type} {g : Nat → α → List β} {tag : β → Nat}
    (htag : ∀ j a x, x ∈ g j a → tag x = j + 1)
    (hnd : ∀ j a, (g j a).Nodup) :
    ∀ (i : Nat) (l : List α), (scanIdx g i l).Nodup := by
  intro i l
  induction l generalizing i with
  | nil => exact List.nodup_nil
  | cons a t ih =>
    refine List.Nodup.append (hnd i a) (ih (i + 1)) ?_
    intro x hx hx2
    have h1 : tag x = i + 1 := htag i a x hx
    obtain ⟨j, hj, hxg⟩ := mem_scanIdx.mp hx2
    have h2 : tag x = i + 1 + j + 1 := htag (i + 1 + j) _ x hxg
    omega

theorem firstLine_cases (f : List Char → Bool) :
    ∀ (i : Nat) (l : List (List Char)),
      firstLine f i l = 0 ∨ ∃ j, j < l.length ∧ firstLine f i l = i + j + 1 := by
  intro i l
  induction l generalizing i with
  | nil => exact Or.inl rfl
  | cons a t ih =>
    by_cases h : f a = true
    · exact Or.inr ⟨0, by simp, by simp [firstLine, h]⟩
    · rcases ih (i + 1) with h0 | ⟨j, hj, he⟩
      · left
        simpa [firstLine, h] using h0
      · refine Or.inr ⟨j + 1, by simpa using hj, ?_⟩
        rw [firstLine, if_neg h]
        omega

/-! ## Consumption lemmas for the matcher primitives -/

theorem litP_eq_some : ∀ {w s r : List Char}, litP w s = some r ↔ s = w ++ r := by
  intro w
  induction w with
  | nil => intro s r; simp [litP]
  | cons c w ih =>
    intro s r
    cases s with
    | nil => simp [litP]
    | cons d t =>
      by_cases h : d = c
      · subst h
        simp [litP, ih]
      · simp [litP, h, Ne.symm h]

theorem litP_self (w r : List Char) : litP w (w ++ r) = some r :=
  litP_eq_some.mpr rfl

theorem litP_none_of_head_ne {c d : Char} (h : d ≠ c) (w t : List Char) :
    litP (c :: w) (d :: t) = none := by
  simp [litP, h]

theorem ciLitP_sub : ∀ {w s r : List Char}, ciLitP w s = some r → ∃ p, s = p ++ r := by
  intro w
  induction w with
  | nil =>
    intro s r h
    simp only [ciLitP, Option.some_inj] at h
    exact ⟨[], by simp [h]⟩
  | cons c w ih =>
    intro s r h
    cases s with
    | nil => simp [ciLitP] at h
    | cons d t =>
      rw [ciLitP] at h
      split at h
      · obtain ⟨p, hp⟩ := ih h
        exact ⟨d :: p, by simp [hp]⟩
      · exact absurd h (by simp)

theorem dropWhile_all_append {q : Char → Bool} :
    ∀ {w : List Char}, (∀ c ∈ w, q c = true) → ∀ {x : Char}, q x = false →
      ∀ (r : List Char), List.dropWhile q (w ++ x :: r) = x :: r := by
  intro w
  induction w with
  | nil =>
    intro _ x hx r
    simp [List.dropWhile, hx]
  | cons c w ih =>
    intro hall x hx r
    have hc : q c = true := hall c (List.mem_cons_self c w)
    simp only [List.cons_append, List.dropWhile, hc]
    exact ih (fun d hd => hall d (List.mem_cons_of_mem c hd)) hx r

theorem dropWs_decomp (s : List Char) :
    ∃ w, s = w ++ dropWs s ∧ ∀ c ∈ w, isWs c = true := by
  refine ⟨s.takeWhile isWs, ?_, ?_⟩
  · rw [dropWs, List.takeWhile_append_dropWhile]
  · intro c hc
    exact List.mem_takeWhile_imp hc

theorem dropWhile_head_false {q : Char → Bool} :
    ∀ {s c r}, List.dropWhile q s = c :: r → q c = false := by
  intro s
  induction s with
  | nil => intro c r h; simp [List.dropWhile] at h
  | cons d t ih =>
    intro c r h
    rw [List.dropWhile] at h
    by_cases hd : q d = true
    · rw [hd] at h
      exact ih h
    · rw [Bool.not_eq_true] at hd
      rw [hd] at h
      simp only [List.cons.injEq] at h
      rw [← h.1]
      exact hd

theorem dropWhile_cons_append {q : Char → Bool} :
    ∀ {s c r}, List.dropWhile q s = c :: r →
      ∀ (u : List Char), List.dropWhile q (s ++ u) = c :: (r ++ u) := by
  intro s
  induction s with
  | nil => intro c r h; simp [List.dropWhile] at h
  | cons d t ih =>
    intro c r h u
    rw [List.dropWhile] at h
    rw [List.cons_append, List.dropWhile]
    by_cases hd : q d = true
    · rw [hd] at h ⊢
      exact ih h u
    · rw [Bool.not_eq_true] at hd
      rw [hd] at h ⊢
      simp only [List.cons.injEq] at h
      simp [h.1, h.2]

theorem dropWs_cons_append {s : List Char} {c : Char} {r : List Char}
    (h : dropWs s = c :: r) (u : List Char) : dropWs (s ++ u) = c :: (r ++ u) :=
  dropWhile_cons_append h u

theorem ws1P_eq_some {s r : List Char} :
    ws1P s = some r ↔ ∃ c t, s = c :: t ∧ isWs c = true ∧ r = dropWs t := by
  cases s with
  | nil => simp [ws1P]
  | cons c t =>
    simp only [ws1P]
    by_cases h : isWs c = true
    · rw [if_pos h]
      constructor
      · intro he
        exact ⟨c, t, rfl, h, (Option.some_inj.mp he).symm⟩
      · rintro ⟨c2, t2, he, _, hr⟩
        simp only [List.cons.injEq] at he
        rw [hr, he.2]
    · rw [if_neg h]
      constructor
      · intro he
        exact absurd he (by simp)
      · rintro ⟨c2, t2, he, hw, _⟩
        simp only [List.cons.injEq] at he
        rw [← he.1] at hw
        exact absurd hw h

theorem wordChars1P_eq_some {s r : List Char} :
    wordChars1P s = some r ↔
      ∃ c t, s = c :: t ∧ isWordChar c = true ∧ r = t.dropWhile isWordChar := by
  cases s with
  | nil => simp [wordChars1P]
  | cons c t =>
    simp only [wordChars1P]
    by_cases h : isWordChar c = true
    · rw [if_pos h]
      constructor
      · intro he
        exact ⟨c, t, rfl, h, (Option.some_inj.mp he).symm⟩
      · rintro ⟨c2, t2, he, _, hr⟩
        simp only [List.cons.injEq] at he
        rw [hr, he.2]
    · rw [if_neg h]
      constructor
      · intro he
        exact absurd he (by simp)
      · rintro ⟨c2, t2, he, hw, _⟩
        simp only [List.cons.injEq] at he
        rw [← he.1] at hw
        exact absurd hw h

theorem containsAt_ex {f : Option Char → List Char → Bool} :
    ∀ {prev s}, containsAt f prev s = true →
      ∃ prev2 a t, s = a ++ t ∧ f prev2 t = true := by
  intro prev s
  induction s generalizing prev with
  | nil =>
    intro h
    exact ⟨prev, [], [], rfl, h⟩
  | cons c t ih =>
    intro h
    rw [containsAt, Bool.or_eq_true] at h
    rcases h with h | h
    · exact ⟨prev, [], c :: t, rfl, h⟩
    · obtain ⟨p2, a, t2, he, hf⟩ := ih h
      exact ⟨p2, c :: a, t2, by simp [he], hf⟩

theorem containsAt_append_of {g : List Char → Bool} {t : List Char} (h : g t = true) :
    ∀ (a : List Char) (prev : Option Char),
      containsAt (fun _ u => g u) prev (a ++ t) = true := by
  intro a
  induction a with
  | nil =>
    intro prev
    cases t with
    | nil => exact h
    | cons c u => simp [containsAt, h]
  | cons c a ih =>
    intro prev
    rw [List.cons_append, containsAt, ih (some c)]
    simp

theorem hasSub_iff {p : List Char} : ∀ {s}, hasSub p s = true ↔ ∃ a b, s = a ++ (p ++ b) := by
  intro s
  induction s with
  | nil =>
    simp only [hasSub, Option.isSome_iff_exists]
    constructor
    · rintro ⟨r, hr⟩
      rw [litP_eq_some] at hr
      exact ⟨[], r, by simp [hr]⟩
    · rintro ⟨a, b, hab⟩
      rw [eq_comm, List.append_eq_nil] at hab
      obtain ⟨ha, hpb⟩ := hab
      rw [List.append_eq_nil] at hpb
      subst ha
      rw [hpb.1]
      exact ⟨p ++ b, by rw [hpb.1, hpb.2]; rfl⟩
  | cons c t ih =>
    rw [hasSub, Bool.or_eq_true, ih]
    constructor
    · rintro (h | ⟨a, b, hab⟩)
      · rw [Option.isSome_iff_exists] at h
        obtain ⟨r, hr⟩ := h
        rw [litP_eq_some] at hr
        exact ⟨[], r, by simp [hr]⟩
      · exact ⟨c :: a, b, by simp [hab]⟩
    · rintro ⟨a, b, hab⟩
      cases a with
      | nil =>
        left
        rw [Option.isSome_iff_exists]
        exact ⟨b, litP_eq_some.mpr (by simpa using hab)⟩
      | cons x y =>
        right
        simp only [List.cons_append, List.cons.injEq] at hab
        exact ⟨y, b, hab.2⟩

/-! ## Lines are infixes of the source text -/

theorem rustLines_decomp_step {c : Char} {t : List Char}
    (he : rustLines (c :: t) = match rustLines t with
          | [] => [[c]]
          | l :: ls => (c :: l) :: ls)
    (ih : (∀ l ∈ rustLines t, ∃ p q, t = p ++ (l ++ q)) ∧
          (∀ l0 ls, rustLines t = l0 :: ls → ∃ q, t = l0 ++ q)) :
    (∀ l ∈ rustLines (c :: t), ∃ p q, c :: t = p ++ (l ++ q)) ∧
    (∀ l0 ls, rustLines (c :: t) = l0 :: ls → ∃ q, c :: t = l0 ++ q) := by
  cases hrt : rustLines t with
  | nil =>
    rw [hrt] at he
    refine ⟨fun l h => ?_, fun l0 ls h => ?_⟩
    · rw [he] at h
      rcases List.mem_cons.mp h with rfl | h2
      · exact ⟨[], t, rfl⟩
      · exact absurd h2 (List.not_mem_nil l)
    · rw [he] at h
      have h0 := (List.cons.inj h).1
      exact ⟨t, by rw [← h0]; rfl⟩
  | cons l1 ls1 =>
    rw [hrt] at he
    obtain ⟨q1, hq1⟩ := ih.2 l1 ls1 hrt
    refine ⟨fun l h => ?_, fun l0 ls h => ?_⟩
    · rw [he] at h
      rcases List.mem_cons.mp h with rfl | h2
      · exact ⟨[], q1, by rw [hq1]; rfl⟩
      · have h2' : l ∈ rustLines t := by
          rw [hrt]
          exact List.mem_cons_of_mem _ h2
        obtain ⟨p, q, hpq⟩ := ih.1 l h2'
        exact ⟨c :: p, q, by rw [hpq]; rfl⟩
    · rw [he] at h
      have h0 := (List.cons.inj h).1
      exact ⟨q1, by rw [← h0, hq1]; rfl⟩

theorem rustLines_decomp : ∀ (s : List Char),
    (∀ l ∈ rustLines s, ∃ p q, s = p ++ (l ++ q)) ∧
    (∀ l0 ls, rustLines s = l0 :: ls → ∃ q, s = l0 ++ q) := by
  intro s
  induction s with
  | nil =>
    refine ⟨fun l h => ?_, fun l0 ls h => ?_⟩
    · simp [rustLines] at h
    · simp [rustLines] at h
  | cons c t ih =>
    by_cases hc : c = '\n'
    · subst hc
      refine ⟨fun l h => ?_, fun l0 ls h => ?_⟩
      · rw [rustLines.eq_2] at h
        rcases List.mem_cons.mp h with rfl | h2
        · exact ⟨[], '\n' :: t, rfl⟩
        · obtain ⟨p, q, hpq⟩ := ih.1 l h2
          exact ⟨'\n' :: p, q, by rw [hpq]; rfl⟩
      · rw [rustLines.eq_2] at h
        have h0 := (List.cons.inj h).1
        exact ⟨'\n' :: t, by rw [← h0]; rfl⟩
    · by_cases hcr : c = '\r'
      · subst hcr
        cases t with
        | nil =>
          have he : rustLines ['\r'] = [['\r']] := rfl
          refine ⟨fun l h => ?_, fun l0 ls h => ?_⟩
          · rw [he] at h
            rcases List.mem_cons.mp h with rfl | h2
            · exact ⟨[], [], rfl⟩
            · exact absurd h2 (List.not_mem_nil l)
          · rw [he] at h
            have h0 := (List.cons.inj h).1
            exact ⟨[], by rw [← h0]; rfl⟩
        | cons d t2 =>
          by_cases hd : d = '\n'
          · subst hd
            refine ⟨fun l h => ?_, fun l0 ls h => ?_⟩
            · rw [show rustLines ('\r' :: '\n' :: t2) = [] :: rustLines t2 from rfl] at h
              rcases List.mem_cons.mp h with rfl | h2
              · exact ⟨[], '\r' :: '\n' :: t2, rfl⟩
              · have h2' : l ∈ rustLines ('\n' :: t2) := by
                  rw [rustLines.eq_2]
                  exact List.mem_cons_of_mem _ h2
                obtain ⟨p, q, hpq⟩ := ih.1 l h2'
                exact ⟨'\r' :: p, q, by rw [hpq]; rfl⟩
            · rw [show rustLines ('\r' :: '\n' :: t2) = [] :: rustLines t2 from rfl] at h
              have h0 := (List.cons.inj h).1
              exact ⟨'\r' :: '\n' :: t2, by rw [← h0]; rfl⟩
          · exact rustLines_decomp_step
              (rustLines.eq_4 '\r' (d :: t2) (fun hh => hc hh)
                (fun t1 _ hdt => hd (List.cons.inj hdt).1)) ih
      · exact rustLines_decomp_step
          (rustLines.eq_4 c t (fun hh => hc hh) (fun _ hcc _ => hcr hcc)) ih

theorem mem_rustLines_decomp {s l : List Char} (h : l ∈ rustLines s) :
    ∃ p q, s = p ++ (l ++ q) :=
  (rustLines_decomp s).1 l h

/-! ## A per-line commit/reveal match extends to the whole source

`\s` can match `\n`, so the whole-source gate of the V1 check is implied by,
but not equivalent to, a single-line match; these lemmas give the implication
used for Scenario A. -/

theorem commitAt_append {s u : List Char} (h : commitAt s = true) :
    commitAt (s ++ u) = true := by
  rw [commitAt] at h
  simp only [Option.isSome_iff_exists, Option.bind_eq_bind, Option.bind_eq_some,
    Option.pure_def, Option.some_inj] at h
  obtain ⟨v, r1, h1, r2, h2, r3, h3, r4, h4, r5, h5, -⟩ := h
  rw [litP_eq_some] at h1 h4 h5
  rw [ws1P_eq_some] at h2
  obtain ⟨c, t1, ht1, hwc, hr2⟩ := h2
  have hd4 : dropWs r3 = '(' :: r4 := h4
  have hd5 : dropWs r4 = 'b' :: ("ytes32".data ++ r5) := h5
  have E1 : litP "function".data (s ++ u) = some (r1 ++ u) := by
    rw [h1, List.append_assoc]
    exact litP_self _ _
  have E4 : litP "(".data (dropWs (r3 ++ u)) = some (r4 ++ u) := by
    rw [dropWs_cons_append hd4 u]
    exact litP_self "(".data (r4 ++ u)
  have E5 : litP "bytes32".data (dropWs (r4 ++ u)) = some (r5 ++ u) := by
    rw [dropWs_cons_append hd5 u, List.append_assoc]
    exact litP_self "bytes32".data (r5 ++ u)
  rcases (Option.orElse_eq_some _ _ _).mp h3 with hA | ⟨hn1, h3'⟩
  · rw [litP_eq_some] at hA
    have hd : dropWs t1 = 'c' :: ("ommit".data ++ r3) := by rw [← hr2]; exact hA
    have E2 : ws1P (r1 ++ u) = some ('c' :: ("ommit".data ++ (r3 ++ u))) := by
      rw [ht1]
      show ws1P (c :: (t1 ++ u)) = _
      simp only [ws1P, hwc, if_true]
      rw [show dropWs (t1 ++ u) = dropWs (t1 ++ u) from rfl, dropWs_cons_append hd u,
        List.append_assoc]
    have E3 : (litP "commit".data ('c' :: ("ommit".data ++ (r3 ++ u))) <|>
        litP "register".data ('c' :: ("ommit".data ++ (r3 ++ u))) <|>
        litP "submit".data ('c' :: ("ommit".data ++ (r3 ++ u)))) = some (r3 ++ u) := by
      apply (Option.orElse_eq_some _ _ _).mpr
      left
      exact litP_self "commit".data (r3 ++ u)
    rw [commitAt]
    simp only [Option.bind_eq_bind, E1, Option.some_bind, E2, E3, E4, E5,
      Option.pure_def, Option.isSome_some]
  rcases (Option.orElse_eq_some _ _ _).mp h3' with hA | ⟨hn2, hA⟩
  · rw [litP_eq_some] at hA
    have hd : dropWs t1 = 'r' :: ("egister".data ++ r3) := by rw [← hr2]; exact hA
    have E2 : ws1P (r1 ++ u) = some ('r' :: ("egister".data ++ (r3 ++ u))) := by
      rw [ht1]
      show ws1P (c :: (t1 ++ u)) = _
      simp only [ws1P, hwc, if_true]
      rw [show dropWs (t1 ++ u) = dropWs (t1 ++ u) from rfl, dropWs_cons_append hd u,
        List.append_assoc]
    have E3 : (litP "commit".data ('r' :: ("egister".data ++ (r3 ++ u))) <|>
        litP "register".data ('r' :: ("egister".data ++ (r3 ++ u))) <|>
        litP "submit".data ('r' :: ("egister".data ++ (r3 ++ u)))) = some (r3 ++ u) := by
      apply (Option.orElse_eq_some _ _ _).mpr
      refine Or.inr ⟨litP_none_of_head_ne (by decide) _ _, ?_⟩
      apply (Option.orElse_eq_some _ _ _).mpr
      left
      exact litP_self "register".data (r3 ++ u)
    rw [commitAt]
    simp only [Option.bind_eq_bind, E1, Option.some_bind, E2, E3, E4, E5,
      Option.pure_def, Option.isSome_some]
  · rw [litP_eq_some] at hA
    have hd : dropWs t1 = 's' :: ("ubmit".data ++ r3) := by rw [← hr2]; exact hA
    have E2 : ws1P (r1 ++ u) = some ('s' :: ("ubmit".data ++ (r3 ++ u))) := by
      rw [ht1]
      show ws1P (c :: (t1 ++ u)) = _
      simp only [ws1P, hwc, if_true]
      rw [show dropWs (t1 ++ u) = dropWs (t1 ++ u) from rfl, dropWs_cons_append hd u,
        List.append_assoc]
    have E3 : (litP "commit".data ('s' :: ("ubmit".data ++ (r3 ++ u))) <|>
        litP "register".data ('s' :: ("ubmit".data ++ (r3 ++ u))) <|>
        litP "submit".data ('s' :: ("ubmit".data ++ (r3 ++ u)))) = some (r3 ++ u) := by
      apply (Option.orElse_eq_some _ _ _).mpr
      refine Or.inr ⟨litP_none_of_head_ne (by decide) _ _, ?_⟩
      apply (Option.orElse_eq_some _ _ _).mpr
      refine Or.inr ⟨litP_none_of_head_ne (by decide) _ _, ?_⟩
      exact litP_self "submit".data (r3 ++ u)
    rw [commitAt]
    simp only [Option.bind_eq_bind, E1, Option.some_bind, E2, E3, E4, E5,
      Option.pure_def, Option.isSome_some]

theorem revealAt_append {s u : List Char} (h : revealAt s = true) :
    revealAt (s ++ u) = true := by
  rw [revealAt] at h
  simp only [Option.isSome_iff_exists, Option.bind_eq_bind, Option.bind_eq_some,
    Option.pure_def, Option.some_inj] at h
  obtain ⟨v, r1, h1, r2, h2, r3, h3, r4, h4, -⟩ := h
  rw [litP_eq_some] at h1 h4
  rw [ws1P_eq_some] at h2
  obtain ⟨c, t1, ht1, hwc, hr2⟩ := h2
  have hd4 : dropWs r3 = '(' :: r4 := h4
  have E1 : litP "function".data (s ++ u) = some (r1 ++ u) := by
    rw [h1, List.append_assoc]
    exact litP_self _ _
  have E4 : litP "(".data (dropWs (r3 ++ u)) = some (r4 ++ u) := by
    rw [dropWs_cons_append hd4 u]
    exact litP_self "(".data (r4 ++ u)
  rcases (Option.orElse_eq_some _ _ _).mp h3 with hA | ⟨hn1, h3'⟩
  · rw [litP_eq_some] at hA
    have hd : dropWs t1 = 'r' :: ("eveal".data ++ r3) := by rw [← hr2]; exact hA
    have E2 : ws1P (r1 ++ u) = some ('r' :: ("eveal".data ++ (r3 ++ u))) := by
      rw [ht1]
      show ws1P (c :: (t1 ++ u)) = _
      simp only [ws1P, hwc, if_true]
      rw [show dropWs (t1 ++ u) = dropWs (t1 ++ u) from rfl, dropWs_cons_append hd u,
        List.append_assoc]
    have E3 : (litP "reveal".data ('r' :: ("eveal".data ++ (r3 ++ u))) <|>
        litP "claim".data ('r' :: ("eveal".data ++ (r3 ++ u))) <|>
        litP "solve".data ('r' :: ("eveal".data ++ (r3 ++ u)))) = some (r3 ++ u) := by
      apply (Option.orElse_eq_some _ _ _).mpr
      left
      exact litP_self "reveal".data (r3 ++ u)
    rw [revealAt]
    simp only [Option.bind_eq_bind, E1, Option.some_bind, E2, E3, E4,
      Option.pure_def, Option.isSome_some]
  rcases (Option.orElse_eq_some _ _ _).mp h3' with hA | ⟨hn2, hA⟩
  · rw [litP_eq_some] at hA
    have hd : dropWs t1 = 'c' :: ("laim".data ++ r3) := by rw [← hr2]; exact hA
    have E2 : ws1P (r1 ++ u) = some ('c' :: ("laim".data ++ (r3 ++ u))) := by
      rw [ht1]
      show ws1P (c :: (t1 ++ u)) = _
      simp only [ws1P, hwc, if_true]
      rw [show dropWs (t1 ++ u) = dropWs (t1 ++ u) from rfl, dropWs_cons_append hd u,
        List.append_assoc]
    have E3 : (litP "reveal".data ('c' :: ("laim".data ++ (r3 ++ u))) <|>
        litP "claim".data ('c' :: ("laim".data ++ (r3 ++ u))) <|>
        litP "solve".data ('c' :: ("laim".data ++ (r3 ++ u)))) = some (r3 ++ u) := by
      apply (Option.orElse_eq_some _ _ _).mpr
      refine Or.inr ⟨litP_none_of_head_ne (by decide) _ _, ?_⟩
      apply (Option.orElse_eq_some _ _ _).mpr
      left
      exact litP_self "claim".data (r3 ++ u)
    rw [revealAt]
    simp only [Option.bind_eq_bind, E1, Option.some_bind, E2, E3, E4,
      Option.pure_def, Option.isSome_some]
  · rw [litP_eq_some] at hA
    have hd : dropWs t1 = 's' :: ("olve".data ++ r3) := by rw [← hr2]; exact hA
    have E2 : ws1P (r1 ++ u) = some ('s' :: ("olve".data ++ (r3 ++ u))) := by
      rw [ht1]
      show ws1P (c :: (t1 ++ u)) = _
      simp only [ws1P, hwc, if_true]
      rw [show dropWs (t1 ++ u) = dropWs (t1 ++ u) from rfl, dropWs_cons_append hd u,
        List.append_assoc]
    have E3 : (litP "reveal".data ('s' :: ("olve".data ++ (r3 ++ u))) <|>
        litP "claim".data ('s' :: ("olve".data ++ (r3 ++ u))) <|>
        litP "solve".data ('s' :: ("olve".data ++ (r3 ++ u)))) = some (r3 ++ u) := by
      apply (Option.orElse_eq_some _ _ _).mpr
      refine Or.inr ⟨litP_none_of_head_ne (by decide) _ _, ?_⟩
      apply (Option.orElse_eq_some _ _ _).mpr
      refine Or.inr ⟨litP_none_of_head_ne (by decide) _ _, ?_⟩
      exact litP_self "solve".data (r3 ++ u)
    rw [revealAt]
    simp only [Option.bind_eq_bind, E1, Option.some_bind, E2, E3, E4,
      Option.pure_def, Option.isSome_some]

theorem reMatch_of_line {g : List Char → Bool}
    (hext : ∀ {s u : List Char}, g s = true → g (s ++ u) = true)
    {code l : List Char} (hl : l ∈ rustLines code)
    (hm : reMatch (fun _ t => g t) l = true) :
    reMatch (fun _ t => g t) code = true := by
  obtain ⟨p, q, hpq⟩ := mem_rustLines_decomp hl
  obtain ⟨p2, a, t, hat, hf⟩ := containsAt_ex hm
  have hg : g (t ++ q) = true := hext hf
  rw [reMatch, hpq, hat, List.append_assoc a t q, ← List.append_assoc p a (t ++ q)]
  exact containsAt_append_of hg (p ++ a) none

theorem commitMatch_of_line {code l : List Char} (hl : l ∈ rustLines code)
    (hm : reMatch (fun _ t => commitAt t) l = true) : commitMatch code = true :=
  reMatch_of_line (fun h => commitAt_append h) hl hm

theorem revealMatch_of_line {code l : List Char} (hl : l ∈ rustLines code)
    (hm : reMatch (fun _ t => revealAt t) l = true) : revealMatch code = true :=
  reMatch_of_line (fun h => revealAt_append h) hl hm

/-! ## Membership characterization of the consensus worker's output -/

theorem Consensus.mem_lineIssues {code : List Char} {j : Nat} {lc : List Char}
    {x : ConsensusIssue} :
    x ∈ lineIssues code j lc ↔
      ((spotMatch lc = true ∧ priceFeedMatch code = false) ∧ x = spotIssue (j + 1)) ∨
      ((keccakMatch lc = true ∧ unsafeRandMatch lc = true) ∧ x = randIssue (j + 1)) := by
  rw [lineIssues]
  cases h1 : spotMatch lc <;> cases h2 : priceFeedMatch code <;>
    cases h3 : keccakMatch lc <;> cases h4 : unsafeRandMatch lc <;>
    simp [h1, h2, h3, h4]

theorem Consensus.mem_output {job : AnalysisJob} {x : ConsensusIssue} :
    x ∈ (analyze_consensus_safety_v3 job).output ↔
      ((commitMatch job.source_code.data && revealMatch job.source_code.data &&
        !blockNumberMatch job.source_code.data) = true ∧
        x = reorgIssue (firstLine revealMatch 0 (rustLines job.source_code.data))) ∨
      ((setterMatch job.source_code.data && criticalVarMatch job.source_code.data &&
        !timeLockMatch job.source_code.data) = true ∧
        x = multiTxIssue (firstLine setterMatch 0 (rustLines job.source_code.data))) ∨
      (∃ j, ∃ h : j < (rustLines job.source_code.data).length,
        x ∈ lineIssues job.source_code.data j
          ((rustLines job.source_code.data).get ⟨j, h⟩)) := by
  simp only [analyze_consensus_safety_v3, List.mem_dedup, List.mem_append, mem_scanIdx]
  by_cases hv1 : (commitMatch job.source_code.data && revealMatch job.source_code.data &&
      !blockNumberMatch job.source_code.data) = true <;>
    by_cases hv2 : (setterMatch job.source_code.data && criticalVarMatch job.source_code.data &&
        !timeLockMatch job.source_code.data) = true <;>
      simp [hv1, hv2, Nat.zero_add, or_assoc]

theorem countP_eq_one_of {α : Type} {l : List α} {p : α → Bool} {v : α}
    (hnd : l.Nodup) (hv : p v = true) (hm : v ∈ l)
    (hu : ∀ x ∈ l, p x = true → x = v) : l.countP p = 1 := by
  have hfil : l.filter p = [v] := by
    apply eq_singleton_of_nodup_all_eq
    · exact List.Nodup.filter p hnd
    · intro x hx
      have hx2 := List.mem_filter.mp hx
      exact hu x hx2.1 hx2.2
    · exact List.mem_filter.mpr ⟨hm, hv⟩
  rw [List.countP_eq_length_filter, hfil]
  rfl

theorem countP_eq_zero_of {α : Type} {l : List α} {p : α → Bool}
    (h : ∀ x ∈ l, p x = false) : l.countP p = 0 := by
  apply List.countP_eq_zero.mpr
  intro a ha
  rw [h a ha]
  exact Bool.false_ne_true

/-- The output of the consensus worker is the image of a `HashSet`: no
duplicates. -/
theorem Consensus.consensusOutput_nodup (job : AnalysisJob) :
    (analyze_consensus_safety_v3 job).output.Nodup := by
  simp only [analyze_consensus_safety_v3]
  exact List.nodup_dedup _

/-- C2 — the V1 commit-reveal detector: a whole-source commit and reveal
match with no `block.number` produces exactly one reorg finding, located at
the first reveal-matching line (0 when none); `block.number` anywhere, or a
missing commit/reveal pattern, suppresses it. -/
theorem claim_C2 (job : Consensus.AnalysisJob) :
    ((∃ l ∈ rustLines job.source_code.data, reMatch (fun _ t => commitAt t) l = true) →
     (∃ l ∈ rustLines job.source_code.data, reMatch (fun _ t => revealAt t) l = true) →
     blockNumberMatch job.source_code.data = false →
     ((Consensus.analyze_consensus_safety_v3 job).output.countP
        (fun f => f.issue_type == Consensus.reorgType) = 1 ∧
      ∀ f ∈ (Consensus.analyze_consensus_safety_v3 job).output,
        f.issue_type = Consensus.reorgType →
          f.line = firstLine revealMatch 0 (rustLines job.source_code.data))) ∧
    (blockNumberMatch job.source_code.data = true ∨
     commitMatch job.source_code.data = false ∨
     revealMatch job.source_code.data = false →
     (Consensus.analyze_consensus_safety_v3 job).output.countP
        (fun f => f.issue_type == Consensus.reorgType) = 0) := by
  have tspot : ∀ n, ((Consensus.spotIssue n).issue_type == Consensus.reorgType) = false := by
    intro n
    simp only [Consensus.spotIssue]
    decide
  have trand : ∀ n, ((Consensus.randIssue n).issue_type == Consensus.reorgType) = false := by
    intro n
    simp only [Consensus.randIssue]
    decide
  have tmulti : ∀ n, ((Consensus.multiTxIssue n).issue_type == Consensus.reorgType) = false := by
    intro n
    simp only [Consensus.multiTxIssue]
    decide
  constructor
  · intro hcl hrl hbn
    obtain ⟨lc, hlc, hmc⟩ := hcl
    obtain ⟨lr, hlr, hmr⟩ := hrl
    have hc : commitMatch job.source_code.data = true := commitMatch_of_line hlc hmc
    have hr : revealMatch job.source_code.data = true := revealMatch_of_line hlr hmr
    have hcond : (commitMatch job.source_code.data && revealMatch job.source_code.data &&
        !blockNumberMatch job.source_code.data) = true := by
      rw [hc, hr, hbn]
      rfl
    have huniq : ∀ x ∈ (Consensus.analyze_consensus_safety_v3 job).output,
        (x.issue_type == Consensus.reorgType) = true →
        x = Consensus.reorgIssue (firstLine revealMatch 0 (rustLines job.source_code.data)) := by
      intro x hx hpx
      rcases Consensus.mem_output.mp hx with ⟨-, hxe⟩ | ⟨-, hxe⟩ | ⟨j, hj, hxe⟩
      · exact hxe
      · rw [hxe] at hpx
        rw [tmulti] at hpx
        exact absurd hpx Bool.false_ne_true
      · rcases Consensus.mem_lineIssues.mp hxe with ⟨-, hxs⟩ | ⟨-, hxs⟩
        · rw [hxs] at hpx
          rw [tspot] at hpx
          exact absurd hpx Bool.false_ne_true
        · rw [hxs] at hpx
          rw [trand] at hpx
          exact absurd hpx Bool.false_ne_true
    constructor
    · refine countP_eq_one_of (Consensus.consensusOutput_nodup job) ?_
        (Consensus.mem_output.mpr (Or.inl ⟨hcond, rfl⟩)) huniq
      show (Consensus.reorgType == Consensus.reorgType) = true
      decide
    · intro f hf hft
      have := huniq f hf (beq_iff_eq.mpr hft)
      rw [this]
      rfl
  · intro hdis
    apply countP_eq_zero_of
    intro x hx
    rcases Consensus.mem_output.mp hx with ⟨hcond, -⟩ | ⟨-, hxe⟩ | ⟨j, hj, hxe⟩
    · exfalso
      rcases hdis with h | h | h <;> rw [h] at hcond <;> simp at hcond
    · rw [hxe]
      exact tmulti _
    · rcases Consensus.mem_lineIssues.mp hxe with ⟨-, hxs⟩ | ⟨-, hxs⟩
      · rw [hxs]
        exact tspot _
      · rw [hxs]
        exact trand _

set_option maxRecDepth 10000 in
theorem claim_C2_witness :
    (((Consensus.analyze_consensus_safety_v3
        ⟨"j", "function commit(bytes32 h)\nfunction reveal()"⟩).output.countP
        (fun f => f.issue_type == Consensus.reorgType) = 1 ∧
      ∀ f ∈ (Consensus.analyze_consensus_safety_v3
        ⟨"j", "function commit(bytes32 h)\nfunction reveal()"⟩).output,
        f.issue_type = Consensus.reorgType →
          f.line = firstLine revealMatch 0
            (rustLines "function commit(bytes32 h)\nfunction reveal()".data)) ∧
     (Consensus.analyze_consensus_safety_v3 ⟨"j2", "block.number"⟩).output.countP
        (fun f => f.issue_type == Consensus.reorgType) = 0) :=
  ⟨(claim_C2 ⟨"j", "function commit(bytes32 h)\nfunction reveal()"⟩).1
      (by decide) (by decide) (by decide),
   (claim_C2 ⟨"j2", "block.number"⟩).2 (Or.inl (by decide))⟩

theorem countP_le_one_of {α : Type} {l : List α} {p : α → Bool} {v : α}
    (hnd : l.Nodup) (hu : ∀ x ∈ l, p x = true → x = v) : l.countP p ≤ 1 := by
  rw [List.countP_eq_length_filter]
  by_cases hm : v ∈ l.filter p
  · have : l.filter p = [v] := by
      apply eq_singleton_of_nodup_all_eq (List.Nodup.filter p hnd) _ hm
      intro x hx
      have hx2 := List.mem_filter.mp hx
      exact hu x hx2.1 hx2.2
    rw [this]
    exact Nat.le_refl 1
  · have : l.filter p = [] := by
      cases hf : l.filter p with
      | nil => rfl
      | cons y ys =>
        exfalso
        have hy : y ∈ l.filter p := by
          rw [hf]
          exact List.mem_cons_self y ys
        have hy2 := List.mem_filter.mp hy
        have := hu y hy2.1 hy2.2
        rw [this] at hy
        exact hm hy
    rw [this]
    exact Nat.zero_le 1

theorem Consensus.reorgIssue_type (n : Nat) :
    (Consensus.reorgIssue n).issue_type = Consensus.reorgType := rfl

theorem Consensus.multiTxIssue_type (n : Nat) :
    (Consensus.multiTxIssue n).issue_type = Consensus.multiTxType := rfl

theorem Consensus.spotIssue_type (n : Nat) :
    (Consensus.spotIssue n).issue_type = Consensus.spotType := rfl

theorem Consensus.randIssue_type (n : Nat) :
    (Consensus.randIssue n).issue_type = Consensus.randType := rfl

/-- C4 counterexample: on a source whose setter declaration spans two lines
(`\s+` in the pattern matches the newline), the worker emits the
multi-transaction finding even though no single line matches the setter
pattern — the claim's "exactly when the source contains a line matching the
setter pattern" fails. -/
theorem claim_C4_cex :
    (Consensus.analyze_consensus_safety_v3
      ⟨"j", "function\nsetAdmin(owner)"⟩).output.countP
      (fun f => f.issue_type == Consensus.multiTxType) = 1 ∧
    ∀ l ∈ rustLines "function\nsetAdmin(owner)".data,
      reMatch (fun _ t => setterAt t) l = false := by decide

/-- C4 (amended) — the V2 state-dependency gate: the finding is emitted at
most once, exactly when the whole source (not necessarily a single line)
matches the setter pattern, references a privileged-role name, and contains
no block-height/timestamp comparison; its line is the first line matching
the setter pattern, or 0 when no single line does. -/
theorem claim_C4 (job : Consensus.AnalysisJob) :
    ((Consensus.analyze_consensus_safety_v3 job).output.countP
        (fun f => f.issue_type == Consensus.multiTxType) ≤ 1) ∧
    ((Consensus.analyze_consensus_safety_v3 job).output.countP
        (fun f => f.issue_type == Consensus.multiTxType) = 1 ↔
      setterMatch job.source_code.data = true ∧
      criticalVarMatch job.source_code.data = true ∧
      timeLockMatch job.source_code.data = false) ∧
    (∀ f ∈ (Consensus.analyze_consensus_safety_v3 job).output,
      f.issue_type = Consensus.multiTxType →
        f.line = firstLine setterMatch 0 (rustLines job.source_code.data)) := by
  have huniq : ∀ x ∈ (Consensus.analyze_consensus_safety_v3 job).output,
      (x.issue_type == Consensus.multiTxType) = true →
      x = Consensus.multiTxIssue (firstLine setterMatch 0 (rustLines job.source_code.data)) := by
    intro x hx hpx
    rcases Consensus.mem_output.mp hx with ⟨-, hxe⟩ | ⟨-, hxe⟩ | ⟨j, hj, hxe⟩
    · rw [hxe, Consensus.reorgIssue_type] at hpx
      exact absurd hpx (by decide)
    · exact hxe
    · rcases Consensus.mem_lineIssues.mp hxe with ⟨-, hxs⟩ | ⟨-, hxs⟩
      · rw [hxs, Consensus.spotIssue_type] at hpx
        exact absurd hpx (by decide)
      · rw [hxs, Consensus.randIssue_type] at hpx
        exact absurd hpx (by decide)
  refine ⟨countP_le_one_of (Consensus.consensusOutput_nodup job) huniq, ?_, ?_⟩
  · constructor
    · intro h1
      have hpos : 0 < (Consensus.analyze_consensus_safety_v3 job).output.countP
          (fun f => f.issue_type == Consensus.multiTxType) := by omega
      obtain ⟨x, hx, hpx⟩ := List.countP_pos_iff.mp hpos
      rcases Consensus.mem_output.mp hx with ⟨-, hxe⟩ | ⟨hcond, -⟩ | ⟨j, hj, hxe⟩
      · rw [hxe, Consensus.reorgIssue_type] at hpx
        exact absurd hpx (by decide)
      · exact by simpa [and_assoc] using hcond
      · rcases Consensus.mem_lineIssues.mp hxe with ⟨-, hxs⟩ | ⟨-, hxs⟩
        · rw [hxs, Consensus.spotIssue_type] at hpx
          exact absurd hpx (by decide)
        · rw [hxs, Consensus.randIssue_type] at hpx
          exact absurd hpx (by decide)
    · rintro ⟨hs, hv, ht⟩
      have hcond : (setterMatch job.source_code.data && criticalVarMatch job.source_code.data &&
          !timeLockMatch job.source_code.data) = true := by
        rw [hs, hv, ht]
        rfl
      refine countP_eq_one_of (Consensus.consensusOutput_nodup job) ?_
        (Consensus.mem_output.mpr (Or.inr (Or.inl ⟨hcond, rfl⟩))) huniq
      show (Consensus.multiTxType == Consensus.multiTxType) = true
      decide
  · intro f hf hft
    have := huniq f hf (beq_iff_eq.mpr hft)
    rw [this]
    rfl

theorem claim_C4_witness :
    (Consensus.analyze_consensus_safety_v3
      ⟨"j", "function setAdmin(owner)"⟩).output.countP
      (fun f => f.issue_type == Consensus.multiTxType) = 1 :=
  (claim_C4 ⟨"j", "function setAdmin(owner)"⟩).2.1.mpr ⟨by decide, by decide, by decide⟩

/-- A finding of the spot-price category in the consensus output comes from
one matching line, with the exemption pattern failing on the whole source. -/
theorem Consensus.spot_mem_inv {job : AnalysisJob} {x : ConsensusIssue}
    (hx : x ∈ (analyze_consensus_safety_v3 job).output)
    (ht : x.issue_type = spotType) :
    ∃ j, ∃ h : j < (rustLines job.source_code.data).length,
      x = spotIssue (j + 1) ∧
      spotMatch ((rustLines job.source_code.data).get ⟨j, h⟩) = true ∧
      priceFeedMatch job.source_code.data = false := by
  rcases Consensus.mem_output.mp hx with ⟨-, hxe⟩ | ⟨-, hxe⟩ | ⟨j, hj, hxe⟩
  · rw [hxe, reorgIssue_type] at ht
    exact absurd ht (by decide)
  · rw [hxe, multiTxIssue_type] at ht
    exact absurd ht (by decide)
  · rcases Consensus.mem_lineIssues.mp hxe with ⟨⟨hs, hnf⟩, hxs⟩ | ⟨-, hxs⟩
    · exact ⟨j, hj, hxs, hs, hnf⟩
    · rw [hxs, randIssue_type] at ht
      exact absurd ht (by decide)

/-- C5 — the V2 spot-price detector: with no whole-file price-feed exemption
match, exactly one spot-price finding is emitted per line matching the
accessor pattern (at that line's 1-based index) and none elsewhere; an
exemption match anywhere suppresses every spot-price finding. -/
theorem claim_C5 (job : Consensus.AnalysisJob) :
    (priceFeedMatch job.source_code.data = true →
      (Consensus.analyze_consensus_safety_v3 job).output.countP
        (fun f => f.issue_type == Consensus.spotType) = 0) ∧
    (priceFeedMatch job.source_code.data = false →
      ∀ i : Nat,
        (Consensus.analyze_consensus_safety_v3 job).output.countP
          (fun f => f.issue_type == Consensus.spotType && f.line == i + 1) =
        if h : i < (rustLines job.source_code.data).length then
          (if spotMatch ((rustLines job.source_code.data).get ⟨i, h⟩) = true then 1 else 0)
        else 0) := by
  constructor
  · intro hpf
    apply countP_eq_zero_of
    intro x hx
    by_cases ht : x.issue_type = Consensus.spotType
    · obtain ⟨j, hj, -, -, hnf⟩ := Consensus.spot_mem_inv hx ht
      rw [hpf] at hnf
      exact absurd hnf (by decide)
    · simp only [beq_eq_false_iff_ne, ne_eq]
      exact ht
  · intro hpf i
    by_cases hi : i < (rustLines job.source_code.data).length
    · rw [dif_pos hi]
      by_cases hsp : spotMatch ((rustLines job.source_code.data).get ⟨i, hi⟩) = true
      · rw [if_pos hsp]
        refine countP_eq_one_of (Consensus.consensusOutput_nodup job) ?_
          (Consensus.mem_output.mpr (Or.inr (Or.inr
            ⟨i, hi, Consensus.mem_lineIssues.mpr (Or.inl ⟨⟨hsp, hpf⟩, rfl⟩)⟩))) ?_
        · show (Consensus.spotType == Consensus.spotType && (i + 1 : Nat) == i + 1) = true
          simp
        · intro x hx hpx
          simp only [Bool.and_eq_true, beq_iff_eq] at hpx
          obtain ⟨j, hj, hxe, -, -⟩ := Consensus.spot_mem_inv hx hpx.1
          have hline : x.line = j + 1 := by rw [hxe]; rfl
          have : j = i := by
            have := hpx.2
            omega
          rw [hxe, this]
      · rw [if_neg hsp]
        apply countP_eq_zero_of
        intro x hx
        by_cases ht : x.issue_type = Consensus.spotType
        · obtain ⟨j, hj, hxe, hsj, -⟩ := Consensus.spot_mem_inv hx ht
          have hji : j ≠ i := by
            intro hei
            subst hei
            exact hsp hsj
          rw [hxe]
          show (Consensus.spotType == Consensus.spotType && (j + 1 : Nat) == i + 1) = false
          simp [hji]
        · have hbf : (x.issue_type == Consensus.spotType) = false :=
            beq_eq_false_iff_ne.mpr ht
          show (x.issue_type == Consensus.spotType && x.line == i + 1) = false
          rw [hbf, Bool.false_and]
    · rw [dif_neg hi]
      apply countP_eq_zero_of
      intro x hx
      by_cases ht : x.issue_type = Consensus.spotType
      · obtain ⟨j, hj, hxe, -, -⟩ := Consensus.spot_mem_inv hx ht
        have hji : j ≠ i := by omega
        rw [hxe]
        show (Consensus.spotType == Consensus.spotType && (j + 1 : Nat) == i + 1) = false
        simp [hji]
      · have hbf : (x.issue_type == Consensus.spotType) = false :=
          beq_eq_false_iff_ne.mpr ht
        show (x.issue_type == Consensus.spotType && x.line == i + 1) = false
        rw [hbf, Bool.false_and]

set_option maxRecDepth 10000 in
theorem claim_C5_witness :
    (Consensus.analyze_consensus_safety_v3
      ⟨"j", "contract X is Chainlink\na.getReserves()"⟩).output.countP
      (fun f => f.issue_type == Consensus.spotType) = 0 ∧
    (Consensus.analyze_consensus_safety_v3 ⟨"j", "a.getReserves()"⟩).output.countP
      (fun f => f.issue_type == Consensus.spotType && f.line == 0 + 1) =
      if h : 0 < (rustLines (String.data "a.getReserves()")).length then
        (if spotMatch ((rustLines (String.data "a.getReserves()")).get ⟨0, h⟩) = true
         then 1 else 0)
      else 0 :=
  ⟨(claim_C5 ⟨"j", "contract X is Chainlink\na.getReserves()"⟩).1 (by decide),
   (claim_C5 ⟨"j", "a.getReserves()"⟩).2 (by decide) 0⟩

/-- A position match of the spot-price pattern forces an argument list that is
empty up to whitespace: the matched text contains `(` and `)` with only
whitespace between them. -/
theorem spotAt_parens {t : List Char} (h : spotAt t = true) :
    ∃ a w b, t = a ++ ('(' :: (w ++ (')' :: b))) ∧ ∀ c ∈ w, isWs c = true := by
  rw [spotAt] at h
  simp only [Option.isSome_iff_exists, Option.bind_eq_bind, Option.bind_eq_some,
    Option.pure_def, Option.some_inj] at h
  obtain ⟨v, t1, h1, t2, h2, t3, h3, t4, h4, -⟩ := h
  rw [litP_eq_some] at h1 h3 h4
  have hsub : ∃ p1, t1 = p1 ++ t2 := by
    rcases (Option.orElse_eq_some _ _ _).mp h2 with hA | ⟨-, h2'⟩
    · exact ciLitP_sub hA
    rcases (Option.orElse_eq_some _ _ _).mp h2' with hA | ⟨-, h2''⟩
    · exact ciLitP_sub hA
    rcases (Option.orElse_eq_some _ _ _).mp h2'' with hA | ⟨-, hA⟩
    · exact ciLitP_sub hA
    · exact ciLitP_sub hA
  obtain ⟨p1, hp1⟩ := hsub
  obtain ⟨w1, hw1, -⟩ := dropWs_decomp t2
  obtain ⟨w2, hw2, hw2a⟩ := dropWs_decomp t3
  refine ⟨'.' :: (p1 ++ w1), w2, t4, ?_, hw2a⟩
  rw [h1, hp1]
  conv_lhs => rw [hw1, h3, hw2, h4]
  simp [List.append_assoc]

/-- C10 — the spot-price pattern requires an empty (whitespace-only) argument
list: every emitted spot-price finding points at a line containing `(` and
`)` with only whitespace between them, and `token.balanceOf(user)` (an
accessor invocation carrying an argument) produces no finding at all. -/
theorem claim_C10 (job : Consensus.AnalysisJob) :
    (∀ f ∈ (Consensus.analyze_consensus_safety_v3 job).output,
      f.issue_type = Consensus.spotType →
      ∃ h : f.line - 1 < (rustLines job.source_code.data).length,
        ∃ a w b,
          (rustLines job.source_code.data).get ⟨f.line - 1, h⟩ =
            a ++ ('(' :: (w ++ (')' :: b))) ∧ ∀ c ∈ w, isWs c = true) ∧
    (Consensus.analyze_consensus_safety_v3 ⟨"j", "token.balanceOf(user)"⟩).output = [] := by
  constructor
  · intro f hf ht
    obtain ⟨j, hj, hxe, hsj, -⟩ := Consensus.spot_mem_inv hf ht
    subst hxe
    simp only [show ∀ n, (Consensus.spotIssue n).line = n from fun _ => rfl,
      Nat.add_sub_cancel]
    refine ⟨hj, ?_⟩
    obtain ⟨p2, a0, t2, hat, hsp⟩ := containsAt_ex hsj
    have hspot : spotAt t2 = true := hsp
    obtain ⟨a, w, b, hdec, hwa⟩ := spotAt_parens hspot
    refine ⟨a0 ++ a, w, b, ?_, hwa⟩
    rw [hat, hdec, List.append_assoc]
  · decide

set_option maxRecDepth 10000 in
theorem claim_C10_witness :
    (∃ h : (Consensus.spotIssue 1).line - 1 <
        (rustLines (String.data "a.getReserves()")).length,
      ∃ a w b,
        (rustLines (String.data "a.getReserves()")).get
          ⟨(Consensus.spotIssue 1).line - 1, h⟩ =
          a ++ ('(' :: (w ++ (')' :: b))) ∧ ∀ c ∈ w, isWs c = true) ∧
    (Consensus.analyze_consensus_safety_v3 ⟨"j", "token.balanceOf(user)"⟩).output = [] :=
  ⟨(claim_C10 ⟨"j", "a.getReserves()"⟩).1 (Consensus.spotIssue 1) (by decide) rfl,
   (claim_C10 ⟨"j", "token.balanceOf(user)"⟩).2⟩

/-! ## The staking worker: totality and shape of the per-line output -/

theorem sub_of_litP {w s r : List Char} (h : litP w s = some r) : ∀ c ∈ r, c ∈ s := by
  rw [litP_eq_some] at h
  intro c hc
  rw [h]
  exact List.mem_append_right w hc

theorem subOfDropWhile {q : Char → Bool} {s : List Char} :
    ∀ c ∈ List.dropWhile q s, c ∈ s := fun _ hc =>
  (List.dropWhile_sublist q).subset hc

theorem hasSub_eq_char {c : Char} {s : List Char} :
    hasSub [c] s = true ↔ c ∈ s := by
  rw [hasSub_iff]
  constructor
  · rintro ⟨a, b, hab⟩
    rw [hab]
    exact List.mem_append_right a (List.mem_cons_self c b)
  · intro hm
    obtain ⟨a, b, hab⟩ := List.append_of_mem hm
    exact ⟨a, b, hab⟩

/-- The low-level-call pattern can only match text that contains `=`: the
`\)\s*=\s*` core demands a literal equals sign. -/
theorem llcClose_has_eq {s : List Char} (h : llcClose s = true) : '=' ∈ s := by
  rw [llcClose] at h
  cases h1 : litP ")".data s with
  | none =>
    simp only [h1] at h
    exact absurd h Bool.false_ne_true
  | some r =>
    simp only [h1] at h
    cases h2 : litP "=".data (dropWs r) with
    | none =>
      simp only [h2] at h
      exact absurd h Bool.false_ne_true
    | some r2 =>
      simp only [h2] at h
      rw [litP_eq_some] at h2
      have hm : '=' ∈ dropWs r := by
        rw [h2]
        exact List.mem_append_left _ (List.mem_singleton.mpr rfl)
      have hm2 : '=' ∈ r := subOfDropWhile '=' hm
      exact sub_of_litP h1 '=' hm2

theorem lowLevelCallAt_has_eq {s : List Char} (h : lowLevelCallAt s = true) : '=' ∈ s := by
  rw [lowLevelCallAt, Bool.or_eq_true] at h
  rcases h with h | h
  · cases hg : (do
        let r ← wordChars1P s
        let r ← litP ",".data (dropWs r)
        pure (dropWs r) : Option (List Char)) with
    | none =>
      simp only [hg] at h
      exact absurd h Bool.false_ne_true
    | some r =>
      simp only [hg] at h
      have hm : '=' ∈ dropWs r := llcClose_has_eq h
      have hm2 : '=' ∈ r := subOfDropWhile '=' hm
      -- chase r back to s through the optional-group chain
      simp only [Option.bind_eq_bind, Option.bind_eq_some, Option.pure_def,
        Option.some_inj] at hg
      obtain ⟨r0, hg0, r1, hg1, hgr⟩ := hg
      rw [← hgr] at hm2
      have hm3 : '=' ∈ r1 := subOfDropWhile '=' hm2
      have hm4 : '=' ∈ dropWs r0 := sub_of_litP hg1 '=' hm3
      have hm5 : '=' ∈ r0 := subOfDropWhile '=' hm4
      rw [wordChars1P_eq_some] at hg0
      obtain ⟨c, t, hst, -, hr0⟩ := hg0
      rw [hr0] at hm5
      have hm6 : '=' ∈ t := subOfDropWhile '=' hm5
      rw [hst]
      exact List.mem_cons_of_mem c hm6
  · have hm : '=' ∈ dropWs s := llcClose_has_eq h
    exact subOfDropWhile '=' hm

theorem lowLevelCallMatch_has_eq {s : List Char} (h : lowLevelCallMatch s = true) :
    '=' ∈ s := by
  rw [lowLevelCallMatch] at h
  obtain ⟨p2, a, t, hat, hf⟩ := containsAt_ex h
  have hm : '=' ∈ t := lowLevelCallAt_has_eq hf
  rw [hat]
  exact List.mem_append_right a hm

/-- The unchecked-return branch of the staking worker is unreachable: a
low-level-call match forces an `=` on the line, and the guard then rejects
the line for containing `=`. -/
theorem Staking.unchecked_nil (i : Nat) (lc : List Char) :
    (if lowLevelCallMatch lc then
       if !hasSub "require(".data lc && !hasSub "=".data lc then
         [Staking.uncheckedIssue (i + 1)]
       else []
     else []) = ([] : List Staking.PrecompileIssue) := by
  by_cases h : lowLevelCallMatch lc = true
  · rw [if_pos h]
    have he : '=' ∈ lc := lowLevelCallMatch_has_eq h
    have hs : hasSub "=".data lc = true := hasSub_eq_char.mpr he
    rw [hs]
    simp
  · rw [if_neg h]

/-- Group 0 of a successful capture is always present (the whole match), so
the worker's `.get(0).unwrap()` cannot panic. -/
theorem funcCaptures_get0 {s : List Char} {fm : Captures}
    (h : funcCaptures s = some fm) : ∃ g0, fm.get 0 = some g0 := by
  rw [funcCaptures] at h
  cases hff : funcFind s with
  | none =>
    rw [hff] at h
    exact absurd h (by simp)
  | some p =>
    rw [hff] at h
    have h2 : some (Captures.mk [some (p.1.take (p.1.length - p.2.length))]) = some fm := h
    rw [Option.some_inj] at h2
    rw [← h2]
    exact ⟨_, rfl⟩

/-- The backward scan always completes (no reachable panic). -/
theorem Staking.findFunc_isSome (lines : List (List Char)) :
    ∀ j, ∃ v, Staking.findFunc lines j = some v := by
  intro j
  induction j with
  | zero =>
    rw [Staking.findFunc]
    cases hc : funcCaptures (lines.getD 0 []) with
    | none => exact ⟨(0, []), rfl⟩
    | some fm =>
      obtain ⟨g0, hg0⟩ := funcCaptures_get0 hc
      exact ⟨(1, g0), by simp [hg0]⟩
  | succ j ih =>
    rw [Staking.findFunc]
    cases hc : funcCaptures (lines.getD (j + 1) []) with
    | none => exact ih
    | some fm =>
      obtain ⟨g0, hg0⟩ := funcCaptures_get0 hc
      exact ⟨(j + 2, g0), by simp [hg0]⟩

theorem Staking.interactionIssue_type (n : Nat) (name : String) :
    (Staking.interactionIssue n name).issue_type = Staking.interactionType := rfl

theorem Staking.missingPayableIssue_type (n : Nat) (sig : List Char) :
    (Staking.missingPayableIssue n sig).issue_type = Staking.missingPayableType := rfl

theorem Staking.uncheckedIssue_type (n : Nat) :
    (Staking.uncheckedIssue n).issue_type = Staking.uncheckedType := rfl

theorem Staking.weakAcIssue_type (n : Nat) :
    (Staking.weakAcIssue n).issue_type = Staking.weakAcType := rfl

theorem Staking.interaction_ne_missing {n m : Nat} {name : String} {sig : List Char} :
    Staking.interactionIssue n name ≠ Staking.missingPayableIssue m sig := by
  intro h
  have h2 := congrArg Staking.PrecompileIssue.issue_type h
  rw [Staking.interactionIssue_type, Staking.missingPayableIssue_type] at h2
  exact absurd h2 (by decide)

theorem Staking.interaction_ne_weak {n m : Nat} {name : String} :
    Staking.interactionIssue n name ≠ Staking.weakAcIssue m := by
  intro h
  have h2 := congrArg Staking.PrecompileIssue.issue_type h
  rw [Staking.interactionIssue_type, Staking.weakAcIssue_type] at h2
  exact absurd h2 (by decide)

theorem Staking.missing_ne_weak {n m : Nat} {sig : List Char} :
    Staking.missingPayableIssue n sig ≠ Staking.weakAcIssue m := by
  intro h
  have h2 := congrArg Staking.PrecompileIssue.issue_type h
  rw [Staking.missingPayableIssue_type, Staking.weakAcIssue_type] at h2
  exact absurd h2 (by decide)

/-- Shape of the per-entry output: it always exists, every finding carries
line `i + 1`, no two findings coincide (the category tags are pairwise
distinct), and the unreachable unchecked-return tag never occurs. -/
theorem Staking.perAddr_spec (lines : List (List Char)) (i : Nat) (lc : List Char)
    (addr : List Char) (name : String) :
    ∃ out, Staking.perAddr lines i lc addr name = some out ∧
      (∀ x ∈ out, x.line = i + 1) ∧ out.Nodup ∧
      (∀ x ∈ out, x.issue_type ≠ Staking.uncheckedType) := by
  rw [Staking.perAddr]
  by_cases ha : addrMatch addr lc = true
  · rw [if_pos ha]
    obtain ⟨fs, hfs⟩ := Staking.findFunc_isSome lines i
    simp only [hfs, Option.bind_eq_bind, Option.some_bind, Option.pure_def]
    rw [Staking.unchecked_nil i lc]
    have hpayC : (if !payableMatch fs.2 then [Staking.missingPayableIssue (i + 1) fs.2]
        else []) = [] ∨
        (if !payableMatch fs.2 then [Staking.missingPayableIssue (i + 1) fs.2] else []) =
        [Staking.missingPayableIssue (i + 1) fs.2] := by
      split_ifs <;> simp
    have hweakC : (if hasSub "public".data fs.2 || hasSub "external".data fs.2 then
          if !acMatch fs.2 then
            if !Staking.fwdScan lines (lines.length - i) i then
              [Staking.weakAcIssue (i + 1)]
            else []
          else []
        else []) = [] ∨
        (if hasSub "public".data fs.2 || hasSub "external".data fs.2 then
          if !acMatch fs.2 then
            if !Staking.fwdScan lines (lines.length - i) i then
              [Staking.weakAcIssue (i + 1)]
            else []
          else []
        else []) = [Staking.weakAcIssue (i + 1)] := by
      split_ifs <;> simp
    rcases hpayC with hp | hp <;> rcases hweakC with hw | hw <;> rw [hp, hw] <;>
      refine ⟨_, rfl, ?_, ?_, ?_⟩
    · intro x hx
      simp only [List.append_nil, List.nil_append, List.mem_cons, List.mem_singleton, List.not_mem_nil, or_false, List.mem_append] at hx
      rw [hx]
      rfl
    · exact List.nodup_cons.mpr ⟨by simp, List.nodup_nil⟩
    · intro x hx
      simp only [List.append_nil, List.nil_append, List.mem_cons, List.mem_singleton, List.not_mem_nil, or_false, List.mem_append] at hx
      rw [hx, Staking.interactionIssue_type]
      decide
    · intro x hx
      simp only [List.append_nil, List.nil_append, List.mem_cons, List.mem_singleton, List.not_mem_nil, or_false, List.mem_append] at hx
      rcases hx with rfl | rfl <;> rfl
    · simp only [List.append_nil, List.nil_append]
      refine List.nodup_cons.mpr ⟨?_, List.nodup_singleton _⟩
      simp only [List.mem_singleton]
      exact Staking.interaction_ne_weak
    · intro x hx
      simp only [List.append_nil, List.nil_append, List.mem_cons, List.mem_singleton, List.not_mem_nil, or_false, List.mem_append] at hx
      rcases hx with rfl | rfl <;>
        simp only [Staking.interactionIssue_type, Staking.weakAcIssue_type] <;> decide
    · intro x hx
      simp only [List.append_nil, List.nil_append, List.mem_cons, List.mem_singleton, List.not_mem_nil, or_false, List.mem_append] at hx
      rcases hx with rfl | rfl <;> rfl
    · simp only [List.append_nil]
      refine List.nodup_cons.mpr ⟨?_, List.nodup_singleton _⟩
      simp only [List.mem_singleton]
      exact Staking.interaction_ne_missing
    · intro x hx
      simp only [List.append_nil, List.nil_append, List.mem_cons, List.mem_singleton, List.not_mem_nil, or_false, List.mem_append] at hx
      rcases hx with rfl | rfl <;>
        simp only [Staking.interactionIssue_type, Staking.missingPayableIssue_type] <;>
        decide
    · intro x hx
      simp only [List.append_nil, List.nil_append, List.mem_cons, List.mem_singleton, List.not_mem_nil, or_false, List.mem_append] at hx
      rcases hx with rfl | rfl | rfl <;> rfl
    · simp only [List.append_nil]
      refine List.nodup_cons.mpr ⟨?_, ?_⟩
      · simp only [List.mem_append, List.mem_singleton]
        rintro (h | h)
        · exact Staking.interaction_ne_missing h
        · exact Staking.interaction_ne_weak h
      · refine List.Nodup.append (List.nodup_singleton _) (List.nodup_singleton _) ?_
        intro x hx1 hx2
        rw [List.mem_singleton] at hx1 hx2
        rw [hx1] at hx2
        exact Staking.missing_ne_weak hx2
    · intro x hx
      simp only [List.append_nil, List.nil_append, List.mem_cons, List.mem_singleton, List.not_mem_nil, or_false, List.mem_append] at hx
      rcases hx with rfl | rfl | rfl <;>
        simp only [Staking.interactionIssue_type, Staking.missingPayableIssue_type,
          Staking.weakAcIssue_type] <;> decide
  · rw [if_neg ha]
    exact ⟨[], rfl, by simp, List.nodup_nil, by simp⟩

theorem Staking.lineIssues_eq (lines : List (List Char)) (i : Nat) (lc : List Char) :
    Staking.lineIssues lines i lc =
      Staking.perAddr lines i lc precompileAddr "P-Chain Handler" := by
  rw [Staking.lineIssues, Staking.STAKING_PRECOMPILES]
  obtain ⟨out, hout, -, -, -⟩ :=
    Staking.perAddr_spec lines i lc precompileAddr "P-Chain Handler"
  simp [List.foldlM, hout]

theorem Staking.lineIssues_spec (lines : List (List Char)) (i : Nat) (lc : List Char) :
    ∃ out, Staking.lineIssues lines i lc = some out ∧
      (∀ x ∈ out, x.line = i + 1) ∧ out.Nodup ∧
      (∀ x ∈ out, x.issue_type ≠ Staking.uncheckedType) := by
  rw [Staking.lineIssues_eq]
  exact Staking.perAddr_spec lines i lc precompileAddr "P-Chain Handler"

theorem scanIdxM_eq_getD {α β : Type} {g : Nat → α → Option (List β)}
    (hg : ∀ i a, (g i a).isSome = true) :
    ∀ (i : Nat) (l : List α),
      scanIdxM g i l = some (scanIdx (fun j a => (g j a).getD []) i l) := by
  intro i l
  induction l generalizing i with
  | nil => rfl
  | cons a t ih =>
    obtain ⟨out, hout⟩ := Option.isSome_iff_exists.mp (hg i a)
    simp [scanIdxM, scanIdx, hout, ih (i + 1)]

/-- The staking analysis never panics: its result is the indexed flat-map of
the per-line bodies. -/
theorem Staking.analyze_eq (job : Staking.AnalysisJob) :
    Staking.analyze_staking_precompiles_v2 job =
      some { job_id := job.job_id
             worker_name := "StakingPrecompileWorkerV2"
             output := scanIdx (fun j lc =>
               (Staking.lineIssues (rustLines job.source_code.data) j lc).getD []) 0
               (rustLines job.source_code.data) } := by
  rw [Staking.analyze_staking_precompiles_v2]
  have hg : ∀ i a,
      (Staking.lineIssues (rustLines job.source_code.data) i a).isSome = true := by
    intro i a
    obtain ⟨out, hout, -, -, -⟩ :=
      Staking.lineIssues_spec (rustLines job.source_code.data) i a
    rw [hout]
    rfl
  simp [scanIdxM_eq_getD hg]

theorem Staking.gT_spec (lines : List (List Char)) (j : Nat) (lc : List Char) :
    (∀ x ∈ (Staking.lineIssues lines j lc).getD [], x.line = j + 1) ∧
    ((Staking.lineIssues lines j lc).getD []).Nodup ∧
    (∀ x ∈ (Staking.lineIssues lines j lc).getD [],
      x.issue_type ≠ Staking.uncheckedType) := by
  obtain ⟨out, hout, h1, h2, h3⟩ := Staking.lineIssues_spec lines j lc
  rw [hout]
  exact ⟨h1, h2, h3⟩

/-- The output of the portability worker is the image of a `HashSet`: no
duplicates. -/
theorem Portability.portabilityOutput_nodup (job : Portability.AnalysisJob) :
    (Portability.analyze_portability_v3 job).output.Nodup := by
  simp only [Portability.analyze_portability_v3]
  exact List.nodup_dedup _

/-- C1 — no worker ever publishes two structurally-equal findings: the
consensus and portability workers deduplicate through a `HashSet`, and the
staking worker (which performs no dedup step) cannot produce duplicates
because findings on one line carry pairwise-distinct category tags and
findings on different lines carry different line numbers. -/
theorem claim_C1 :
    (∀ job : Consensus.AnalysisJob,
      (Consensus.analyze_consensus_safety_v3 job).output.Nodup) ∧
    (∀ job : Portability.AnalysisJob,
      (Portability.analyze_portability_v3 job).output.Nodup) ∧
    (∀ (job : Staking.AnalysisJob) (r : Staking.AnalysisResult),
      Staking.analyze_staking_precompiles_v2 job = some r → r.output.Nodup) := by
  refine ⟨Consensus.consensusOutput_nodup, Portability.portabilityOutput_nodup, ?_⟩
  intro job r hr
  rw [Staking.analyze_eq job, Option.some_inj] at hr
  have hout : r.output = scanIdx (fun j lc =>
      (Staking.lineIssues (rustLines job.source_code.data) j lc).getD []) 0
      (rustLines job.source_code.data) := by
    rw [← hr]
  rw [hout]
  exact nodup_scanIdx
    (fun j a x hx => (Staking.gT_spec (rustLines job.source_code.data) j a).1 x hx)
    (fun j a => (Staking.gT_spec (rustLines job.source_code.data) j a).2.1) 0 _

set_option maxRecDepth 10000 in
theorem claim_C1_witness :
    (Staking.AnalysisResult.mk "j" "StakingPrecompileWorkerV2"
      [Staking.interactionIssue 1 "P-Chain Handler",
       Staking.missingPayableIssue 1 []]).output.Nodup :=
  claim_C1.2.2 ⟨"j", "0x0100000000000000000000000000000000000000"⟩ _ (by decide)

/-- The staking worker never emits an unchecked-return finding. -/
theorem Staking.unchecked_never (job : Staking.AnalysisJob) (r : Staking.AnalysisResult)
    (hr : Staking.analyze_staking_precompiles_v2 job = some r) :
    ∀ f ∈ r.output, f.issue_type ≠ Staking.uncheckedType := by
  rw [Staking.analyze_eq job, Option.some_inj] at hr
  intro f hf
  have hout : r.output = scanIdx (fun j lc =>
      (Staking.lineIssues (rustLines job.source_code.data) j lc).getD []) 0
      (rustLines job.source_code.data) := by
    rw [← hr]
  rw [hout] at hf
  obtain ⟨j, hj, hx⟩ := mem_scanIdx.mp hf
  exact (Staking.gT_spec (rustLines job.source_code.data) (0 + j) _).2.2 f hx

/-- C3 counterexample: the claim is false as stated, because its existential
part fails — the low-level-call pattern itself demands the `=` that the
guard then forbids, so no source text ever produces the Unchecked Return
Value finding. -/
theorem claim_C3_cex :
    ¬ ((∀ (job : Staking.AnalysisJob) (r : Staking.AnalysisResult) (i : Nat)
          (h : i < (rustLines job.source_code.data).length),
          Staking.analyze_staking_precompiles_v2 job = some r →
          addrMatch precompileAddr ((rustLines job.source_code.data).get ⟨i, h⟩) = true →
          lowLevelCallMatch ((rustLines job.source_code.data).get ⟨i, h⟩) = true →
          ((∃ f ∈ r.output, f.line = i + 1 ∧ f.issue_type = Staking.uncheckedType) ↔
            (hasSub "require(".data ((rustLines job.source_code.data).get ⟨i, h⟩) = false ∧
             hasSub "=".data ((rustLines job.source_code.data).get ⟨i, h⟩) = false))) ∧
        (∃ (job : Staking.AnalysisJob) (r : Staking.AnalysisResult),
          Staking.analyze_staking_precompiles_v2 job = some r ∧
          ∃ f ∈ r.output, f.issue_type = Staking.uncheckedType)) := by
  rintro ⟨-, job, r, hr, f, hf, hft⟩
  exact Staking.unchecked_never job r hr f hf hft

/-- C3 (amended) — the unchecked-return check is dead code: a line matching
the raw low-level-call pattern necessarily contains `=`, the guard requires
the line to contain no `=`, hence the finding is emitted for no line of any
source text. -/
theorem claim_C3 :
    (∀ lc : List Char, lowLevelCallMatch lc = true → hasSub "=".data lc = true) ∧
    (∀ (job : Staking.AnalysisJob) (r : Staking.AnalysisResult),
      Staking.analyze_staking_precompiles_v2 job = some r →
      ∀ f ∈ r.output, f.issue_type ≠ Staking.uncheckedType) :=
  ⟨fun _ h => hasSub_eq_char.mpr (lowLevelCallMatch_has_eq h),
   Staking.unchecked_never⟩

set_option maxRecDepth 10000 in
theorem claim_C3_witness :
    hasSub "=".data
      (String.data "(bool success, ) = 0x0100000000000000000000000000000000000000.call()") =
      true ∧
    (Staking.interactionIssue 1 "P-Chain Handler").issue_type ≠ Staking.uncheckedType :=
  ⟨claim_C3.1
      (String.data "(bool success, ) = 0x0100000000000000000000000000000000000000.call()")
      (by decide),
   claim_C3.2 ⟨"j", "0x0100000000000000000000000000000000000000"⟩
      ⟨"j", "StakingPrecompileWorkerV2",
        [Staking.interactionIssue 1 "P-Chain Handler",
         Staking.missingPayableIssue 1 []]⟩ (by decide)
      (Staking.interactionIssue 1 "P-Chain Handler") (by decide)⟩

theorem mem_ite_singleton {α : Type} {c : Prop} [Decidable c] {v x : α}
    (h : x ∈ (if c then [v] else [])) : x = v := by
  split at h
  · simpa using h
  · simp at h

theorem mem_double_ite {α : Type} {c1 c2 : Prop} [Decidable c1] [Decidable c2] {v x : α}
    (h : x ∈ (if c1 then (if c2 then [v] else []) else [])) : x = v := by
  split at h
  · exact mem_ite_singleton h
  · simp at h

/-- All findings of the per-line body of the portability worker carry line
`i + 1`. -/
theorem Portability.lineIssues_line {enabled : Option (List String)} {j : Nat}
    {lc : List Char} {x : Portability.PortabilityIssue}
    (hx : x ∈ Portability.lineIssues enabled j lc) : x.line = j + 1 := by
  rw [Portability.lineIssues.eq_def] at hx
  simp only [List.mem_append] at hx
  rcases hx with ((((h | h) | h) | h) | h) | h
  · rw [mem_ite_singleton h]
    rfl
  · rw [mem_ite_singleton h]
    rfl
  · rw [mem_ite_singleton h]
    rfl
  · rw [mem_ite_singleton h]
    rfl
  · rw [List.mem_flatMap] at h
    obtain ⟨p, -, hp⟩ := h
    rw [mem_ite_singleton hp]
    rfl
  · cases enabled with
    | none => simp at h
    | some precompiles =>
      rw [List.mem_flatMap] at h
      obtain ⟨p, -, hp⟩ := h
      rw [mem_double_ite hp]
      rfl

/-- Every nonzero line number of a portability finding indexes a real line. -/
theorem Portability.line_bound (job : Portability.AnalysisJob)
    (f : Portability.PortabilityIssue)
    (hf : f ∈ (Portability.analyze_portability_v3 job).output) (hnz : f.line ≠ 0) :
    f.line ≤ (rustLines job.source_code.data).length := by
  simp only [Portability.analyze_portability_v3, List.mem_dedup, List.mem_append] at hf
  rcases hf with h | h
  · obtain ⟨j, hj, hx⟩ := mem_scanIdx.mp h
    have := Portability.lineIssues_line hx
    omega
  · cases hgl : job.subnet_genesis.bind fun g => g.config.fee_config.gas_limit with
    | none =>
      simp only [hgl] at h
      simp at h
    | some limit =>
      simp only [hgl] at h
      have hfe := mem_ite_singleton h
      rw [hfe] at hnz
      exact absurd rfl hnz

/-- C7 — line-bound validity: every finding with a nonzero line number
refers to a real 1-based line index of the job's source text, for each of
the three workers. -/
theorem claim_C7 :
    (∀ (job : Consensus.AnalysisJob) (f : Consensus.ConsensusIssue),
      f ∈ (Consensus.analyze_consensus_safety_v3 job).output → f.line ≠ 0 →
      f.line ≤ (rustLines job.source_code.data).length) ∧
    (∀ (job : Portability.AnalysisJob) (f : Portability.PortabilityIssue),
      f ∈ (Portability.analyze_portability_v3 job).output → f.line ≠ 0 →
      f.line ≤ (rustLines job.source_code.data).length) ∧
    (∀ (job : Staking.AnalysisJob) (r : Staking.AnalysisResult)
      (f : Staking.PrecompileIssue),
      Staking.analyze_staking_precompiles_v2 job = some r →
      f ∈ r.output → f.line ≠ 0 →
      f.line ≤ (rustLines job.source_code.data).length) := by
  refine ⟨?_, Portability.line_bound, ?_⟩
  · intro job f hf hnz
    rcases Consensus.mem_output.mp hf with ⟨-, hxe⟩ | ⟨-, hxe⟩ | ⟨j, hj, hxe⟩
    · rcases firstLine_cases revealMatch 0 (rustLines job.source_code.data) with h0 | ⟨j, hj, he⟩
      · rw [hxe] at hnz ⊢
        rw [show (Consensus.reorgIssue (firstLine revealMatch 0
          (rustLines job.source_code.data))).line =
          firstLine revealMatch 0 (rustLines job.source_code.data) from rfl] at hnz ⊢
        rw [h0] at hnz
        exact absurd rfl hnz
      · rw [hxe]
        rw [show (Consensus.reorgIssue (firstLine revealMatch 0
          (rustLines job.source_code.data))).line =
          firstLine revealMatch 0 (rustLines job.source_code.data) from rfl, he]
        omega
    · rcases firstLine_cases setterMatch 0 (rustLines job.source_code.data) with h0 | ⟨j, hj, he⟩
      · rw [hxe] at hnz ⊢
        rw [show (Consensus.multiTxIssue (firstLine setterMatch 0
          (rustLines job.source_code.data))).line =
          firstLine setterMatch 0 (rustLines job.source_code.data) from rfl] at hnz ⊢
        rw [h0] at hnz
        exact absurd rfl hnz
      · rw [hxe]
        rw [show (Consensus.multiTxIssue (firstLine setterMatch 0
          (rustLines job.source_code.data))).line =
          firstLine setterMatch 0 (rustLines job.source_code.data) from rfl, he]
        omega
    · rcases Consensus.mem_lineIssues.mp hxe with ⟨-, hxs⟩ | ⟨-, hxs⟩
      · rw [hxs]
        rw [show (Consensus.spotIssue (j + 1)).line = j + 1 from rfl]
        omega
      · rw [hxs]
        rw [show (Consensus.randIssue (j + 1)).line = j + 1 from rfl]
        omega
  · intro job r f hr hf hnz
    rw [Staking.analyze_eq job, Option.some_inj] at hr
    have hout : r.output = scanIdx (fun j lc =>
        (Staking.lineIssues (rustLines job.source_code.data) j lc).getD []) 0
        (rustLines job.source_code.data) := by
      rw [← hr]
    rw [hout] at hf
    obtain ⟨j, hj, hx⟩ := mem_scanIdx.mp hf
    have := (Staking.gT_spec (rustLines job.source_code.data) (0 + j) _).1 f hx
    omega

set_option maxRecDepth 10000 in
theorem claim_C7_witness :
    (Consensus.spotIssue 1).line ≤ (rustLines (String.data "a.getReserves()")).length :=
  claim_C7.1 ⟨"j", "a.getReserves()"⟩ (Consensus.spotIssue 1) (by decide) (by decide)

/-- C8 — totality: the staking evaluation (the only one with a fallible
operation, the capture `unwrap`) succeeds on every input, and each worker's
evaluation of the edge inputs of the spec (empty source, single line with no
trailing newline, CRLF endings, binary-looking text) returns a result with a
(possibly empty) finding list. -/
theorem claim_C8 :
    (∀ job : Staking.AnalysisJob,
      (Staking.analyze_staking_precompiles_v2 job).isSome = true) ∧
    (Consensus.analyze_consensus_safety_v3 ⟨"j", ""⟩).output = [] ∧
    (Staking.analyze_staking_precompiles_v2 ⟨"j", ""⟩ =
      some ⟨"j", "StakingPrecompileWorkerV2", []⟩) ∧
    (Portability.analyze_portability_v3 ⟨"j", "", none⟩).output = [] ∧
    (Consensus.analyze_consensus_safety_v3 ⟨"j", "one line, no newline"⟩).output = [] ∧
    (Staking.analyze_staking_precompiles_v2 ⟨"j", "a\r\nb\r\n"⟩ =
      some ⟨"j", "StakingPrecompileWorkerV2", []⟩) ∧
    (Portability.analyze_portability_v3 ⟨"j", "\x00\x01\xff binary \x07", none⟩).output = [] := by
  refine ⟨?_, by decide, by decide, by decide, by decide, by decide, by decide⟩
  intro job
  rw [Staking.analyze_eq job]
  rfl

/-- C6 — the orchestrator turn: a payload that fails to parse is silently
dropped (no result published); a payload that parses produces exactly one
result whose job identifier equals the parsed job's identifier — for both
the consensus and the staking worker. -/
theorem claim_C6 :
    (∀ (parse : String → Option Consensus.AnalysisJob) (payload : String),
      (parse payload = none → Consensus.processPayload parse payload = []) ∧
      (∀ job, parse payload = some job →
        ∃ r, Consensus.processPayload parse payload = [r] ∧ r.job_id = job.job_id)) ∧
    (∀ (parse : String → Option Staking.AnalysisJob) (payload : String),
      (parse payload = none → Staking.processPayload parse payload = []) ∧
      (∀ job, parse payload = some job →
        ∃ r, Staking.processPayload parse payload = [r] ∧ r.job_id = job.job_id)) := by
  constructor
  · intro parse payload
    constructor
    · intro h
      rw [Consensus.processPayload, h]
    · intro job h
      rw [Consensus.processPayload, h]
      exact ⟨Consensus.analyze_consensus_safety_v3 job, rfl, rfl⟩
  · intro parse payload
    constructor
    · intro h
      rw [Staking.processPayload, h]
    · intro job h
      rw [Staking.processPayload, h]
      simp only [Staking.analyze_eq job]
      exact ⟨_, rfl, rfl⟩

theorem claim_C6_witness :
    (Consensus.processPayload (fun _ => none) "garbage" = []) ∧
    (∃ r, Staking.processPayload (fun _ => some ⟨"id7", ""⟩) "p" = [r] ∧
      r.job_id = "id7") :=
  ⟨(claim_C6.1 (fun _ => none) "garbage").1 rfl,
   (claim_C6.2 (fun _ => some ⟨"id7", ""⟩) "p").2 ⟨"id7", ""⟩ rfl⟩

/-- When no line at or before `i` matches the function-declaration pattern,
the backward scan completes with start line 0 and an empty signature. -/
theorem Staking.findFunc_none (lines : List (List Char)) :
    ∀ i, (∀ j, j ≤ i → funcCaptures (lines.getD j []) = none) →
      Staking.findFunc lines i = some (0, []) := by
  intro i
  induction i with
  | zero =>
    intro h
    rw [Staking.findFunc, h 0 (Nat.le_refl 0)]
  | succ j ih =>
    intro h
    rw [Staking.findFunc, h (j + 1) (Nat.le_refl _)]
    exact ih fun k hk => h k (Nat.le_trans hk (Nat.le_succ j))

/-- With an address match on line `i` and no enclosing declaration, the
per-entry output is exactly the base finding plus the missing-payability
finding with empty signature. -/
theorem Staking.perAddr_no_func (lines : List (List Char)) (i : Nat) (lc : List Char)
    (haddr : addrMatch precompileAddr lc = true)
    (hnone : ∀ j, j ≤ i → funcCaptures (lines.getD j []) = none) :
    Staking.perAddr lines i lc precompileAddr "P-Chain Handler" =
      some [Staking.interactionIssue (i + 1) "P-Chain Handler",
            Staking.missingPayableIssue (i + 1) []] := by
  rw [Staking.perAddr, if_pos haddr]
  simp only [Staking.findFunc_none lines i hnone, Option.bind_eq_bind, Option.some_bind,
    Option.pure_def]
  rw [Staking.unchecked_nil i lc]
  have h1 : payableMatch ([] : List Char) = false := by decide
  have h2 : hasSub "public".data ([] : List Char) = false := by decide
  have h3 : hasSub "external".data ([] : List Char) = false := by decide
  simp [h1, h2, h3]

/-- C9 — a precompile-address line with no function declaration at or above
it: the backward scan yields the empty signature, so the Missing Payable
Modifier finding is always emitted for that line and the Weak Access Control
finding never is. -/
theorem claim_C9 (job : Staking.AnalysisJob) (r : Staking.AnalysisResult) (i : Nat)
    (h : i < (rustLines job.source_code.data).length)
    (hr : Staking.analyze_staking_precompiles_v2 job = some r)
    (haddr : addrMatch precompileAddr
      ((rustLines job.source_code.data).get ⟨i, h⟩) = true)
    (hnone : ∀ j, j ≤ i →
      funcCaptures ((rustLines job.source_code.data).getD j []) = none) :
    (Staking.missingPayableIssue (i + 1) [] ∈ r.output) ∧
    (∀ f ∈ r.output, f.line = i + 1 → f.issue_type ≠ Staking.weakAcType) := by
  rw [Staking.analyze_eq job, Option.some_inj] at hr
  have hout : r.output = scanIdx (fun j lc =>
      (Staking.lineIssues (rustLines job.source_code.data) j lc).getD []) 0
      (rustLines job.source_code.data) := by
    rw [← hr]
  have hgi : (Staking.lineIssues (rustLines job.source_code.data) i
      ((rustLines job.source_code.data).get ⟨i, h⟩)).getD [] =
      [Staking.interactionIssue (i + 1) "P-Chain Handler",
       Staking.missingPayableIssue (i + 1) []] := by
    rw [Staking.lineIssues_eq,
      Staking.perAddr_no_func (rustLines job.source_code.data) i _ haddr hnone]
    rfl
  constructor
  · rw [hout]
    apply mem_scanIdx.mpr
    refine ⟨i, h, ?_⟩
    rw [Nat.zero_add, hgi]
    simp
  · intro f hf hfl
    rw [hout] at hf
    obtain ⟨j, hj, hx⟩ := mem_scanIdx.mp hf
    have hline : f.line = 0 + j + 1 :=
      (Staking.gT_spec (rustLines job.source_code.data) (0 + j) _).1 f hx
    have hji : j = i := by omega
    subst hji
    rw [Nat.zero_add] at hx
    rw [hgi] at hx
    simp only [List.mem_cons, List.mem_singleton, List.not_mem_nil, or_false] at hx
    rcases hx with rfl | rfl <;>
      simp only [Staking.interactionIssue_type, Staking.missingPayableIssue_type] <;>
      decide

set_option maxRecDepth 10000 in
theorem claim_C9_witness :
    (Staking.missingPayableIssue (0 + 1) [] ∈
      (Staking.AnalysisResult.mk "j" "StakingPrecompileWorkerV2"
        [Staking.interactionIssue 1 "P-Chain Handler",
         Staking.missingPayableIssue 1 []]).output) ∧
    (∀ f ∈ (Staking.AnalysisResult.mk "j" "StakingPrecompileWorkerV2"
        [Staking.interactionIssue 1 "P-Chain Handler",
         Staking.missingPayableIssue 1 []]).output,
      f.line = 0 + 1 → f.issue_type ≠ Staking.weakAcType) :=
  claim_C9 ⟨"j", "0x0100000000000000000000000000000000000000"⟩
    ⟨"j", "StakingPrecompileWorkerV2",
      [Staking.interactionIssue 1 "P-Chain Handler",
       Staking.missingPayableIssue 1 []]⟩ 0 (by decide) (by decide) (by decide)
    (fun j hj => by cases Nat.le_zero.mp hj; decide)
